import Mathlib

/-!
Shallow embedding of the SAMRAI hier::BoxContainer domain calculus
(src/source/SAMRAI/hier/BoxContainer.h) and of
pdat::FirstLayerNodeVariableFillPattern::computeStencilBoxes
(src/source/SAMRAI/pdat/FirstLayerNodeVariableFillPattern.C).

A box is an axis-aligned region of n-dimensional integer index space given by
one closed interval (lower, upper) per dimension; a box is empty when some
dimension has lower > upper.  The BoxContainer implementation file
(BoxContainer.C) is not part of the source tree here, so the bodies of the
container operations are modelled from the header documentation and the
specification; each such definition says so in its doc comment.
-/

namespace SAMRAI

/-- Per-dimension (lower, upper) closed integer intervals of an axis-aligned
box, embedding the corner data of hier::Box. -/
abbrev Bounds : Type := List (Int × Int)

/-- Membership of an index (one integer coordinate per dimension) in a box:
the coordinate lists must have the same length and each coordinate must lie
inside the corresponding closed interval. -/
def memB : List Int → Bounds → Bool
  | [], [] => true
  | x :: ps, d :: bs => (decide (d.1 ≤ x) && decide (x ≤ d.2)) && memB ps bs
  | _, _ => false

/-- Modelled from the spec: hier::Box::size (Box.h is not in the tree) — the number
of indices in a box: the product over dimensions of the extent
(upper - lower + 1, clamped at zero), i.e. zero for an empty box. -/
def sizeB (b : Bounds) : Nat :=
  (b.map (fun d => (d.2 + 1 - d.1).toNat)).prod

/-- Modelled from the spec: hier::Box operator * (Box.h is not in the tree) — the
dimension-wise intersection of two boxes. -/
def interB (b t : Bounds) : Bounds :=
  List.zipWith (fun d e => (max d.1 e.1, min d.2 e.2)) b t

/-- A box is non-empty when every dimension has lower <= upper. -/
def nonemptyB (b : Bounds) : Bool :=
  b.all (fun d => decide (d.1 ≤ d.2))

/-- The finite set of index points covered by a box. -/
def pts : Bounds → Finset (List Int)
  | [] => {[]}
  | d :: bs => (Finset.Icc d.1 d.2).biUnion (fun x => (pts bs).image (fun p => x :: p))

/-- Componentwise containment of boxes: subB s b is true when s and b have the
same dimension and each interval of s lies inside the matching interval of b. -/
def subB : Bounds → Bounds → Bool
  | [], [] => true
  | e :: ss, d :: bs => (decide (d.1 ≤ e.1) && decide (e.2 ≤ d.2)) && subB ss bs
  | _, _ => false

/-- Modelled from the spec: BoxContainer::burstBoxes (private helper declared in
BoxContainer.h; BoxContainer.C is not in the source tree).  Splits the box b
against the solid region s one dimension at a time, dimension 0 first, emitting
at most two fragments per dimension (the part below s and the part above s) and
narrowing b to s in that dimension before continuing with the next dimension. -/
def burstBounds : Bounds → Bounds → List Bounds
  | d :: bs, e :: ss =>
      (if d.1 < e.1 then [(d.1, e.1 - 1) :: bs] else []) ++
        ((if e.2 < d.2 then [(e.2 + 1, d.2) :: bs] else []) ++
          (burstBounds bs ss).map (fun f => e :: f))
  | _, _ => []

/-- Union of the index sets covered by a list of boxes. -/
def ptsL (L : List Bounds) : Finset (List Int) := L.foldr (fun b acc => pts b ∪ acc) ∅

/-- Two boxes are non-overlapping when they cover no common index. -/
def ptsDisj (f g : Bounds) : Prop := pts f ∩ pts g = ∅

instance : DecidableRel ptsDisj := fun f g => decEq _ _

/-- Modelled from the spec: the per-member body of removeIntersections — member b is
replaced by the fragments of bursting b against its overlap with takeaway t when the
two intersect, and is kept unchanged otherwise (BoxContainer.C is not in the tree). -/
def removeFromBox (b t : Bounds) : List Bounds :=
  if nonemptyB (interB b t) then burstBounds b (interB b t) else [b]

/-- Modelled from the spec: removeIntersections(const Box& takeaway) over the whole
member sequence. -/
def removeIntersectionsB (L : List Bounds) (t : Bounds) : List Bounds :=
  L.flatMap (fun b => removeFromBox b t)

/-- Modelled from the spec: removeIntersections(const BoxContainer& takeaway): removes
every member's overlap with every takeaway box in turn. -/
def removeIntersectionsListB (L : List Bounds) (ts : List Bounds) : List Bounds :=
  ts.foldl removeIntersectionsB L

/-- Modelled from the spec: intersectBoxes(const BoxContainer& keep): each member is
replaced by its intersections with the keep boxes, discarding pieces with no overlap. -/
def intersectBoxesListB (L : List Bounds) (ks : List Bounds) : List Bounds :=
  L.flatMap (fun b =>
    ks.filterMap (fun k => if nonemptyB (interB b k) then some (interB b k) else none))

/-- Modelled from the spec: removeIntersections(const Box& box, const Box& takeaway),
the two-box variant for a container that is required to be empty initially: the
container receives box minus the intersection of box with takeaway; when the two
boxes do not intersect, box itself is simply added. -/
def removeIntersections2B (box takeaway : Bounds) : List Bounds :=
  removeFromBox box takeaway

/-- Modelled from the spec: pdat::NodeGeometry::toNodeBox (NodeGeometry.h is not in
the tree) — convert a cell-centred box to its node-centred
box by extending every upper corner by one. -/
def toNodeBox (b : Bounds) : Bounds := b.map (fun d => (d.1, d.2 + 1))

/-- Modelled from the spec: hier::Box::grow (Box.h is not in the tree) — widen both
sides of every dimension by the per-dimension ghost width (negative widths
shrink). -/
def growBounds (b : Bounds) (g : List Int) : Bounds :=
  List.zipWith (fun d gi => (d.1 - gi, d.2 + gi)) b g

/-- FirstLayerNodeVariableFillPattern::computeStencilBoxes
(src/source/SAMRAI/pdat/FirstLayerNodeVariableFillPattern.C, lines 129-140):
starting from the asserted-empty stencil container, takes the node box of the
destination box, shrinks a copy by one in every direction, and calls the two-box
removeIntersections variant, leaving the one-node-wide boundary layer. -/
def computeStencilBoxes (dst : Bounds) : List Bounds :=
  removeIntersections2B (toNodeBox dst)
    (growBounds (toNodeBox dst) (List.replicate dst.length (-1)))

/-- Identity data of a Box (its BoxId): owner rank, local index, and periodic shift
identifier; a periodic identifier of zero marks a real (unshifted) box. -/
structure BoxId where
  owner : Int
  localId : Int
  periodicId : Nat
deriving DecidableEq, Repr

/-- Modelled from the spec: the identity order used by ordered containers
(Box::id_less; Box.h is not in the tree): lexicographic on
owner, then local index, then periodic identifier. -/
def idLess (a b : BoxId) : Bool :=
  decide (a.owner < b.owner) ||
    (decide (a.owner = b.owner) &&
      (decide (a.localId < b.localId) ||
        (decide (a.localId = b.localId) && decide (a.periodicId < b.periodicId))))

/-- A member Box: its bounds plus identity and block association. -/
structure Box where
  bounds : Bounds
  boxId : BoxId
  blockId : Nat
deriving DecidableEq, Repr

/-- The BoxContainer state: the member sequence (d_list) and the ordered flag
(d_ordered).  In the ordered state the sequence is kept sorted by identity,
mirroring the identity index (d_set) over the sequence. -/
structure BoxContainer where
  boxes : List Box
  ordered : Bool
deriving DecidableEq, Repr

/-- The run-time error kinds of the container contract (§7 of the specification). -/
inductive BoxErr
  | wrongMode
  | mixedBlock
  | unsupportedDim
  | emptyContainer
deriving DecidableEq, Repr

/-- Smallest box containing two boxes (componentwise hull). -/
def hullB (a b : Bounds) : Bounds :=
  List.zipWith (fun d e => (min d.1 e.1, max d.2 e.2)) a b

/-- Two boxes may be coalesced exactly when their union is itself a box, i.e. when
the index count of their hull equals the count of their union. -/
def canCoalesce (a b : Bounds) : Bool :=
  a.length == b.length &&
    sizeB (hullB a b) == sizeB a + sizeB b - sizeB (interB a b)

/-- Scan for the first later member that coalesces with b; returns the hull and the
remaining members. -/
def findCoalesce (b : Bounds) : List Bounds → Option (Bounds × List Bounds)
  | [] => none
  | x :: xs =>
    if canCoalesce b x then some (hullB b x, xs)
    else
      match findCoalesce b xs with
      | some (h, ys) => some (h, x :: ys)
      | none => none

/-- One coalescing pass in container order: merge the first mergeable pair, if any. -/
def coalescePass : List Bounds → Option (List Bounds)
  | [] => none
  | b :: bs =>
    match findCoalesce b bs with
    | some (h, rest) => some (h :: rest)
    | none =>
      match coalescePass bs with
      | some bs2 => some (b :: bs2)
      | none => none

/-- Merge passes repeated to a fixed point; each successful pass shortens the list
by one, so the initial length bounds the number of passes. -/
def coalesceAux : Nat → List Bounds → List Bounds
  | 0, l => l
  | fuel + 1, l =>
    match coalescePass l with
    | some l2 => coalesceAux fuel l2
    | none => l

/-- Modelled from the spec: coalesce() — remove the empty members, then repeatedly
merge, in container order, pairs of boxes whose union is exactly representable as
one box, until no further merge is possible (BoxContainer.C is not in the tree). -/
def coalesceB (l : List Bounds) : List Bounds :=
  coalesceAux (l.filter (fun b => nonemptyB b)).length (l.filter (fun b => nonemptyB b))

/-- Lexicographic order on index points, lowest dimension most significant. -/
def ltPt : List Int → List Int → Bool
  | [], [] => false
  | [], _ :: _ => true
  | _ :: _, [] => false
  | x :: xs, y :: ys => decide (x < y) || (decide (x = y) && ltPt xs ys)

/-- Sorted-insert with deduplication for building the canonical cell list. -/
def insertPt (p : List Int) : List (List Int) → List (List Int)
  | [] => [p]
  | q :: qs =>
    if ltPt p q then p :: q :: qs
    else if p == q then q :: qs
    else q :: insertPt p qs

/-- Canonical (sorted, duplicate-free) representation of a set of index points. -/
def sortPts (ps : List (List Int)) : List (List Int) := ps.foldr insertPt []

/-- The integers of the closed interval [l, h], in increasing order. -/
def intRange (l h : Int) : List Int :=
  (List.range (h + 1 - l).toNat).map (fun i : Nat => l + (i : Int))

/-- The index points of a box, enumerated in lexicographic order. -/
def ptList : Bounds → List (List Int)
  | [] => [[]]
  | d :: bs => (intRange d.1 d.2).flatMap (fun x => (ptList bs).map (fun p => x :: p))

/-- The one-cell box at an index point. -/
def unitBox (p : List Int) : Bounds := p.map (fun x => (x, x))

/-- Whether the point p extends a run box b downward along the highest dimension:
every dimension but the last must be degenerate at p's coordinate and the last
interval of b must begin right after p's last coordinate. -/
def extendsRun : List Int → Bounds → Bool
  | x :: xs, d :: bs =>
    match xs, bs with
    | [], [] => decide (d.1 = x + 1)
    | _, _ => decide (d.1 = x) && decide (d.2 = x) && extendsRun xs bs
  | _, _ => false

/-- Extend a run box downward along the highest dimension to start at p. -/
def extendRun : List Int → Bounds → Bounds
  | x :: xs, d :: bs =>
    match xs, bs with
    | [], [] => [(x, d.2)]
    | _, _ => d :: extendRun xs bs
  | _, b => b

/-- Coalesce a lexicographically sorted duplicate-free cell list into maximal runs
along the highest dimension. -/
def mergeRuns : List (List Int) → List Bounds
  | [] => []
  | p :: ps =>
    match mergeRuns ps with
    | [] => [unitBox p]
    | b :: bs => if extendsRun p b then extendRun p b :: bs else unitBox p :: b :: bs

/-- Two boxes agree in every dimension except possibly dimension k. -/
def sameExcept : Nat → Bounds → Bounds → Bool
  | _, [], [] => true
  | 0, _ :: as, _ :: bs => as == bs
  | k + 1, a :: as, b :: bs => (a == b) && sameExcept k as bs
  | _, _, _ => false

/-- Two boxes may be coalesced along dimension k: they agree in every other
dimension and their union is exactly one box. -/
def canMergeDir (k : Nat) (a b : Bounds) : Bool :=
  sameExcept k a b && canCoalesce a b

/-- Scan for the first later member that coalesces with b along dimension k;
returns the hull and the remaining members. -/
def findDir (k : Nat) (b : Bounds) : List Bounds → Option (Bounds × List Bounds)
  | [] => none
  | x :: xs =>
    if canMergeDir k b x then some (hullB b x, xs)
    else
      match findDir k b xs with
      | some (h, ys) => some (h, x :: ys)
      | none => none

/-- One coalescing pass along dimension k, in sequence order. -/
def dirPass (k : Nat) : List Bounds → Option (List Bounds)
  | [] => none
  | b :: bs =>
    match findDir k b bs with
    | some (h, rest) => some (h :: rest)
    | none =>
      match dirPass k bs with
      | some bs2 => some (b :: bs2)
      | none => none

/-- Passes along dimension k repeated to a fixed point; each successful pass
shortens the list by one, so the initial length bounds the pass count. -/
def dirFix (k : Nat) : Nat → List Bounds → List Bounds
  | 0, l => l
  | fuel + 1, l =>
    match dirPass k l with
    | some l2 => dirFix k fuel l2
    | none => l

/-- Coalesce along dimension k until no pair can be merged in that direction. -/
def coalesceDir (k : Nat) (l : List Bounds) : List Bounds := dirFix k l.length l

/-- Coalesce along dimensions n-1, n-2, ..., 0 in that order — higher dimensions
before lower ones. -/
def coalesceDirsDown : Nat → List Bounds → List Bounds
  | 0, l => l
  | n + 1, l => coalesceDirsDown n (coalesceDir n l)

/-- The dimension of the cells of a canonical cell list. -/
def ptDim : List (List Int) → Nat
  | [] => 0
  | p :: _ => p.length

/-- Modelled from the spec: simplify() — the canonical overlap-free decomposition of
the covered index set (BoxContainer.C is not in the tree): the covered cells,
listed canonically (sorted without duplicates), are coalesced into maximal runs
along the highest dimension and the boxes are then coalesced along each dimension
from the highest down to dimension 0 — higher dimensions before lower ones, the
opposite priority from bursting.  The result depends only on the covered index
set, so it is reproducible across containers describing the same region. -/
def simplifyB (l : List Bounds) : List Bounds :=
  coalesceDirsDown (ptDim (sortPts (l.flatMap ptList)))
    (mergeRuns (sortPts (l.flatMap ptList)))

/-- Identity-sorted insertion into the member sequence of an ordered container. -/
def sortedInsert (b : Box) : List Box → List Box
  | [] => [b]
  | x :: xs => if idLess b.boxId x.boxId then b :: x :: xs else x :: sortedInsert b xs

/-- Whether some member carries the given identity. -/
def hasId (l : List Box) (i : BoxId) : Bool := l.any (fun x => x.boxId == i)

/-- Identity-keyed insert on the member sequence: no change on an identity
collision, identity-ordered insertion otherwise. -/
def insertIfNew (l : List Box) (b : Box) : List Box :=
  if hasId l b.boxId then l else sortedInsert b l

/-- The member sequence is strictly sorted by identity. -/
def sortedById : List Box → Bool
  | [] => true
  | [_] => true
  | a :: b :: rest => idLess a.boxId b.boxId && sortedById (b :: rest)

/-- Modelled from the spec: per the header contract (BoxContainer.h lines 707-727): ordered insert
of a single box.  Legal on an ordered container, or on an empty unordered container
— which thereby becomes ordered; a run-time error on a non-empty unordered
container.  Returns whether the box was added: false, with the container unchanged,
when a member already carries the same BoxId. -/
def insertC (c : BoxContainer) (b : Box) : Except BoxErr (Bool × BoxContainer) :=
  if c.ordered then
    if hasId c.boxes b.boxId then .ok (false, c)
    else .ok (true, { c with boxes := sortedInsert b c.boxes })
  else if c.boxes.isEmpty then .ok (true, { boxes := [b], ordered := true })
  else .error .wrongMode

/-- Modelled from the spec: per the header contract (BoxContainer.h lines 729-755): insert with a
position hint.  The search for the insertion point starts at the hinted position
when every member before it precedes the new box in identity order; the final
placement is always determined by identity order. -/
def insertHintC (c : BoxContainer) (hint : Nat) (b : Box) : Except BoxErr BoxContainer :=
  if c.ordered then
    if hasId c.boxes b.boxId then .ok c
    else if (c.boxes.take hint).all (fun x => idLess x.boxId b.boxId) then
      .ok { c with boxes := c.boxes.take hint ++ sortedInsert b (c.boxes.drop hint) }
    else .ok { c with boxes := sortedInsert b c.boxes }
  else if c.boxes.isEmpty then .ok { boxes := [b], ordered := true }
  else .error .wrongMode

/-- Modelled from the spec: per the header contract (BoxContainer.h lines 774-787): find by
identity; ordered-only. -/
def findC (c : BoxContainer) (b : Box) : Except BoxErr (Option Box) :=
  if c.ordered then .ok (c.boxes.find? (fun x => x.boxId == b.boxId))
  else .error .wrongMode

/-- Modelled from the spec: per the header contract: lowerBound — the first member whose identity
is not below the key; ordered-only. -/
def lowerBoundC (c : BoxContainer) (b : Box) : Except BoxErr (Option Box) :=
  if c.ordered then .ok (c.boxes.find? (fun x => !idLess x.boxId b.boxId))
  else .error .wrongMode

/-- Modelled from the spec: per the header contract: upperBound — the first member whose identity
is above the key; ordered-only. -/
def upperBoundC (c : BoxContainer) (b : Box) : Except BoxErr (Option Box) :=
  if c.ordered then .ok (c.boxes.find? (fun x => idLess b.boxId x.boxId))
  else .error .wrongMode

/-- Modelled from the spec: per the header contract (BoxContainer.h lines 816-828): erase by
identity; ordered-only; removes at most one member, returning 1 when removed. -/
def eraseIdC (c : BoxContainer) (b : Box) : Except BoxErr (Nat × BoxContainer) :=
  if c.ordered then
    if hasId c.boxes b.boxId then
      .ok (1, { c with boxes := c.boxes.filter (fun x => x.boxId != b.boxId) })
    else .ok (0, c)
  else .error .wrongMode

/-- Modelled from the spec: hier::Box::shift (Box.h is not in the tree) — translate
both corners by the offset, per dimension. -/
def shiftBounds (b : Bounds) (v : List Int) : Bounds :=
  List.zipWith (fun d vi => (d.1 + vi, d.2 + vi)) b v

/-- Modelled from the spec: (§4.3) refine — scale the index space finer by an integer
ratio per dimension. -/
def refineBounds (b : Bounds) (r : List Int) : Bounds :=
  List.zipWith (fun d ri => (d.1 * ri, (d.2 + 1) * ri - 1)) b r

/-- Modelled from the spec: (§4.3) coarsen — floor-divide both corners by the ratio. -/
def coarsenBounds (b : Bounds) (r : List Int) : Bounds :=
  List.zipWith (fun d ri => (Int.fdiv d.1 ri, Int.fdiv d.2 ri)) b r

/-- Modelled from the spec: grow is legal in either mode (header section, BoxContainer.h
lines 186-391). -/
def growE (c : BoxContainer) (g : List Int) : Except BoxErr BoxContainer :=
  .ok { c with boxes := c.boxes.map (fun b => { b with bounds := growBounds b.bounds g }) }

/-- Modelled from the spec: shift is legal in either mode (header section, BoxContainer.h
lines 186-391). -/
def shiftE (c : BoxContainer) (v : List Int) : Except BoxErr BoxContainer :=
  .ok { c with boxes := c.boxes.map (fun b => { b with bounds := shiftBounds b.bounds v }) }

/-- Modelled from the spec: refine is legal in either mode (header section, BoxContainer.h
lines 186-391). -/
def refineE (c : BoxContainer) (r : List Int) : Except BoxErr BoxContainer :=
  .ok { c with boxes := c.boxes.map (fun b => { b with bounds := refineBounds b.bounds r }) }

/-- Modelled from the spec: coarsen is legal in either mode (header section, BoxContainer.h
lines 186-391). -/
def coarsenE (c : BoxContainer) (r : List Int) : Except BoxErr BoxContainer :=
  .ok { c with boxes := c.boxes.map (fun b => { b with bounds := coarsenBounds b.bounds r }) }

/-- Modelled from the spec: per the header contract: pushFront is in the section "Methods that may
only be called on unordered containers" (lines 422-703); violating the restriction
is a run-time error (lines 52-54). -/
def pushFrontE (c : BoxContainer) (b : Box) : Except BoxErr BoxContainer :=
  if c.ordered then .error .wrongMode
  else .ok { c with boxes := b :: c.boxes }

/-- Modelled from the spec: per the header contract: pushBack; unordered-only. -/
def pushBackE (c : BoxContainer) (b : Box) : Except BoxErr BoxContainer :=
  if c.ordered then .error .wrongMode
  else .ok { c with boxes := c.boxes ++ [b] }

/-- Modelled from the spec: per the header contract: popFront; unordered-only, empty container is
a run-time error (§7 EmptyContainerError). -/
def popFrontE (c : BoxContainer) : Except BoxErr BoxContainer :=
  if c.ordered then .error .wrongMode
  else
    match c.boxes with
    | [] => .error .emptyContainer
    | _ :: rest => .ok { c with boxes := rest }

/-- Modelled from the spec: per the header contract: popBack; unordered-only. -/
def popBackE (c : BoxContainer) : Except BoxErr BoxContainer :=
  if c.ordered then .error .wrongMode
  else if c.boxes.isEmpty then .error .emptyContainer
  else .ok { c with boxes := c.boxes.dropLast }

/-- Modelled from the spec: per the header contract: spliceFront transfers the whole contents of
the other container to this one's front, leaving the other empty; unordered-only
for the receiver. -/
def spliceFrontE (c other : BoxContainer) : Except BoxErr (BoxContainer × BoxContainer) :=
  if c.ordered then .error .wrongMode
  else .ok ({ c with boxes := other.boxes ++ c.boxes }, { other with boxes := [] })

/-- Modelled from the spec: per the header contract: spliceBack; unordered-only for the receiver. -/
def spliceBackE (c other : BoxContainer) : Except BoxErr (BoxContainer × BoxContainer) :=
  if c.ordered then .error .wrongMode
  else .ok ({ c with boxes := c.boxes ++ other.boxes }, { other with boxes := [] })

/-- Modelled from the spec: per the header contract: container-valued removeIntersections;
unordered-only (section lines 422-703).  Every member is replaced by its fragments
after removing the overlaps with all takeaway boxes; fragments keep the member's
identity metadata, which unordered containers do not interpret. -/
def removeIntersectionsE (c t : BoxContainer) : Except BoxErr BoxContainer :=
  if c.ordered then .error .wrongMode
  else .ok { c with boxes := (c.boxes.flatMap (fun b =>
    (removeIntersectionsListB [b.bounds] (t.boxes.map (fun x => x.bounds))).map
      (fun f => { b with bounds := f }))) }

/-- Modelled from the spec: per the header contract: container-valued intersectBoxes;
unordered-only. -/
def intersectBoxesE (c k : BoxContainer) : Except BoxErr BoxContainer :=
  if c.ordered then .error .wrongMode
  else .ok { c with boxes := (c.boxes.flatMap (fun b =>
    (intersectBoxesListB [b.bounds] (k.boxes.map (fun x => x.bounds))).map
      (fun f => { b with bounds := f }))) }

/-- Modelled from the spec: per the header contract: coalesce(); unordered-only.  The merged boxes
of an unordered container carry no meaningful identity, so the rebuilt members use a
default identity tag. -/
def coalesceE (c : BoxContainer) : Except BoxErr BoxContainer :=
  if c.ordered then .error .wrongMode
  else .ok { c with boxes := ((coalesceB (c.boxes.map (fun b => b.bounds))).map
    (fun f => { bounds := f, boxId := ⟨0, 0, 0⟩, blockId := 0 })) }

/-- Modelled from the spec: per the header contract: simplify(); unordered-only. -/
def simplifyE (c : BoxContainer) : Except BoxErr BoxContainer :=
  if c.ordered then .error .wrongMode
  else .ok { c with boxes := ((simplifyB (c.boxes.map (fun b => b.bounds))).map
    (fun f => { bounds := f, boxId := ⟨0, 0, 0⟩, blockId := 0 })) }

/-- All members share one block association. -/
def sameBlock (c : BoxContainer) : Bool :=
  match c.boxes with
  | [] => true
  | b :: rest => rest.all (fun x => x.blockId == b.blockId)

/-- All members are two- or three-dimensional (rotate works only in 2D or 3D). -/
def rotDimOk (c : BoxContainer) : Bool :=
  c.boxes.all (fun b => b.bounds.length == 2 || b.bounds.length == 3)

/-- Modelled from the spec: one quarter-turn in the plane of the first two
dimensions; the full 3-D rotation table (Transformation::RotationIdentifier) is
external to the tree, so the spatial action is modelled in 2-D and as the identity
elsewhere — only rotate's mode/block/dimension error contract is under
verification. -/
def rotQuarter : Bounds → Bounds
  | [d1, d2] => [(-d2.2, -d2.1), d1]
  | b => b

/-- Rotation by a number of quarter turns. -/
def rotateBounds (ident : Nat) (b : Bounds) : Bounds := rotQuarter^[ident] b

/-- Modelled from the spec: per the header contract (BoxContainer.h lines 545-560): rotate may
only be called on an unordered container, fails on mixed block associations
(MixedBlockError) and outside 2D/3D (UnsupportedDimensionError). -/
def rotateE (c : BoxContainer) (ident : Nat) : Except BoxErr BoxContainer :=
  if c.ordered then .error .wrongMode
  else if sameBlock c = false then .error .mixedBlock
  else if rotDimOk c = false then .error .unsupportedDim
  else .ok { c with boxes := (c.boxes.map
    (fun b => { b with bounds := rotateBounds ident b.bounds })) }

/-- Modelled from the spec: spatial equality of boxes — the corners match
(hier::Box::isSpatiallyEqual; Box.h is not in the tree). -/
def spatiallyEqual (a b : Box) : Bool := a.bounds == b.bounds

/-- Every box of xs has a spatially equal box in ys. -/
def setIncl (xs ys : List Box) : Bool :=
  xs.all (fun a => ys.any (fun b => spatiallyEqual a b))

/-- Modelled from the spec: per the header contract (BoxContainer.h lines 878-889) and spec §4.5:
operator== — when both containers are ordered, the member identities must pair up
identically; otherwise the two member sequences must be spatially equal as sets,
regardless of order. -/
def eqC (a b : BoxContainer) : Bool :=
  if a.ordered && b.ordered then
    a.boxes.map (fun x => x.boxId) == b.boxes.map (fun x => x.boxId)
  else setIncl a.boxes b.boxes && setIncl b.boxes a.boxes

/-- Modelled from the spec: size() — the number of members. -/
def sizeC (c : BoxContainer) : Nat := c.boxes.length

/-- A member is a periodic image when its periodic identifier is non-zero. -/
def isPeriodic (b : Box) : Bool := b.boxId.periodicId != 0

/-- Modelled from the spec: per the header contract (BoxContainer.h lines 832-847): the const
method separatePeriodicImages appends the real members and the periodic-image
members of the container to the two output vectors, which are NOT cleared first;
the source container is returned unchanged. -/
def separatePeriodicImages (c : BoxContainer) (realV perV : List Box) :
    BoxContainer × List Box × List Box :=
  (c, realV ++ c.boxes.filter (fun b => !isPeriodic b),
    perV ++ c.boxes.filter (fun b => isPeriodic b))

/-- Modelled from the spec: the unshifted version of a member — a periodic image is
translated back by its periodic offset (supplied by the external shift catalogue,
scaled by the refinement ratio) and its periodic tag reset; real members pass
through unchanged. -/
def unshiftBox (cat : Nat → List Int) (ratio : Int) (b : Box) : Box :=
  if isPeriodic b then
    { b with
      bounds := shiftBounds b.bounds
        ((cat b.boxId.periodicId).map (fun x => -(x * ratio))),
      boxId := { b.boxId with periodicId := 0 } }
  else b

/-- Modelled from the spec: per the header contract (BoxContainer.h lines 856-874): the const
method unshiftPeriodicImageBoxes inserts the unshifted version of every member into
the output container, which is NOT cleared first; the source container is returned
unchanged. -/
def unshiftPeriodicImageBoxes (c out : BoxContainer) (cat : Nat → List Int)
    (ratio : Int) : BoxContainer × BoxContainer :=
  (c, { out with boxes :=
    (c.boxes.foldl (fun acc b => insertIfNew acc (unshiftBox cat ratio b)) out.boxes) })

/-- Strict lexicographic sortedness of a cell list. -/
def chainLt : List (List Int) → Bool
  | [] => true
  | [_] => true
  | p :: q :: rest => ltPt p q && chainLt (q :: rest)

theorem mem_pts : ∀ (b : Bounds) (p : List Int), p ∈ pts b ↔ memB p b = true := by
  intro b
  induction b with
  | nil =>
    intro p
    cases p <;> simp [pts, memB]
  | cons d bs ih =>
    intro p
    cases p with
    | nil =>
      simp [pts, memB, Finset.mem_biUnion]
    | cons x ps =>
      simp only [pts, memB, Finset.mem_biUnion, Finset.mem_image, Finset.mem_Icc]
      constructor
      · rintro ⟨y, ⟨hy1, hy2⟩, q, hq, heq⟩
        injection heq with h1 h2
        subst h1
        subst h2
        simp [hy1, hy2, (ih q).mp hq]
      · intro h
        have h1 : d.1 ≤ x := by
          by_contra hc
          simp [decide_eq_true_eq, hc] at h
        have h2 : x ≤ d.2 := by
          by_contra hc
          simp [decide_eq_true_eq, hc] at h
        have h3 : memB ps bs = true := by
          simp [decide_eq_true_eq, h1, h2] at h
          exact h
        exact ⟨x, ⟨h1, h2⟩, ps, (ih ps).mpr h3, rfl⟩

theorem card_pts : ∀ b : Bounds, (pts b).card = sizeB b := by
  intro b
  induction b with
  | nil => simp [pts, sizeB]
  | cons d bs ih =>
    have hdisj : ∀ x ∈ Finset.Icc d.1 d.2, ∀ y ∈ Finset.Icc d.1 d.2, x ≠ y →
        Disjoint ((pts bs).image (fun p => x :: p)) ((pts bs).image (fun p => y :: p)) := by
      intro x _ y _ hxy
      rw [Finset.disjoint_left]
      rintro a ha hb
      obtain ⟨p, _, rfl⟩ := Finset.mem_image.mp ha
      obtain ⟨q, _, heq⟩ := Finset.mem_image.mp hb
      exact hxy ((List.cons.injEq ..).mp heq.symm).1
    rw [pts, Finset.card_biUnion hdisj]
    have himg : ∀ x : Int, ((pts bs).image (fun p => x :: p)).card = (pts bs).card := by
      intro x
      exact Finset.card_image_of_injective _ (fun p q h => ((List.cons.injEq ..).mp h).2)
    calc (Finset.Icc d.1 d.2).sum (fun x => ((pts bs).image (fun p => x :: p)).card)
        = (Finset.Icc d.1 d.2).sum (fun _ => (pts bs).card) := by
          exact Finset.sum_congr rfl (fun x _ => himg x)
      _ = (Finset.Icc d.1 d.2).card * (pts bs).card := by
          rw [Finset.sum_const, smul_eq_mul]
      _ = (d.2 + 1 - d.1).toNat * sizeB bs := by rw [Int.card_Icc, ih]
      _ = sizeB (d :: bs) := by simp [sizeB]

theorem memB_interB : ∀ (b t : Bounds) (p : List Int), b.length = t.length →
    (memB p (interB b t) = true ↔ memB p b = true ∧ memB p t = true) := by
  intro b
  induction b with
  | nil =>
    intro t p hlen
    cases t with
    | nil => cases p <;> simp [interB, memB]
    | cons e ts => simp at hlen
  | cons d bs ih =>
    intro t p hlen
    cases t with
    | nil => simp at hlen
    | cons e ts =>
      cases p with
      | nil => simp [interB, memB]
      | cons x ps =>
        have hl : bs.length = ts.length := by simpa using hlen
        simp only [interB, List.zipWith_cons_cons, memB, Bool.and_eq_true,
          decide_eq_true_eq, le_max_iff, max_le_iff, le_min_iff, min_le_iff]
        rw [show List.zipWith (fun d e => (max d.1 e.1, min d.2 e.2)) bs ts = interB bs ts from rfl]
        constructor
        · rintro ⟨⟨h1, h2⟩, h3⟩
          have := (ih ts ps hl).mp h3
          exact ⟨⟨⟨by omega, by omega⟩, this.1⟩, ⟨⟨by omega, by omega⟩, this.2⟩⟩
        · rintro ⟨⟨⟨h1, h2⟩, h3⟩, ⟨⟨h4, h5⟩, h6⟩⟩
          exact ⟨⟨by omega, by omega⟩, (ih ts ps hl).mpr ⟨h3, h6⟩⟩

theorem pts_interB (b t : Bounds) (hlen : b.length = t.length) :
    pts (interB b t) = pts b ∩ pts t := by
  ext p
  rw [Finset.mem_inter, mem_pts, mem_pts, mem_pts]
  exact memB_interB b t p hlen

theorem nonemptyB_iff_pts_nonempty : ∀ b : Bounds, nonemptyB b = true ↔ (pts b).Nonempty := by
  intro b
  induction b with
  | nil =>
    simp [nonemptyB, pts]
  | cons d bs ih =>
    simp only [nonemptyB, List.all_cons, Bool.and_eq_true, decide_eq_true_eq, pts]
    constructor
    · rintro ⟨h1, h2⟩
      obtain ⟨q, hq⟩ := ih.mp h2
      exact ⟨d.1 :: q, Finset.mem_biUnion.mpr ⟨d.1, Finset.mem_Icc.mpr ⟨le_refl _, h1⟩,
        Finset.mem_image.mpr ⟨q, hq, rfl⟩⟩⟩
    · rintro ⟨p, hp⟩
      obtain ⟨x, hx, hq⟩ := Finset.mem_biUnion.mp hp
      obtain ⟨q, hq2, _⟩ := Finset.mem_image.mp hq
      have hx2 := Finset.mem_Icc.mp hx
      exact ⟨by omega, ih.mpr ⟨q, hq2⟩⟩

theorem mem_burst_cons (d e : Int × Int) (bs ss : Bounds) (f : Bounds) :
    f ∈ burstBounds (d :: bs) (e :: ss) ↔
      (d.1 < e.1 ∧ f = (d.1, e.1 - 1) :: bs) ∨
        (e.2 < d.2 ∧ f = (e.2 + 1, d.2) :: bs) ∨
          (∃ g ∈ burstBounds bs ss, f = e :: g) := by
  by_cases hc1 : d.1 < e.1 <;> by_cases hc2 : e.2 < d.2 <;>
    simp [burstBounds, hc1, hc2, List.mem_append, List.mem_map, eq_comm] <;> tauto

theorem length_mem_burst : ∀ (b s : Bounds) (f : Bounds), f ∈ burstBounds b s →
    f.length = b.length := by
  intro b
  induction b with
  | nil =>
    intro s f hf
    cases s <;> simp [burstBounds] at hf
  | cons d bs ih =>
    intro s f hf
    cases s with
    | nil => simp [burstBounds] at hf
    | cons e ss =>
      rcases (mem_burst_cons d e bs ss f).mp hf with ⟨_, rfl⟩ | ⟨_, rfl⟩ | ⟨g, hg, rfl⟩
      · rfl
      · rfl
      · simp [ih ss g hg]

theorem exists_mem_burst_cons (d e : Int × Int) (bs ss : Bounds) (x : Int) (ps : List Int) :
    (∃ f ∈ burstBounds (d :: bs) (e :: ss), memB (x :: ps) f = true) ↔
      ((d.1 < e.1 ∧ d.1 ≤ x ∧ x ≤ e.1 - 1 ∧ memB ps bs = true) ∨
        (e.2 < d.2 ∧ e.2 + 1 ≤ x ∧ x ≤ d.2 ∧ memB ps bs = true) ∨
          (e.1 ≤ x ∧ x ≤ e.2 ∧ ∃ g ∈ burstBounds bs ss, memB ps g = true)) := by
  constructor
  · rintro ⟨f, hf, hm⟩
    rcases (mem_burst_cons d e bs ss f).mp hf with ⟨hc, rfl⟩ | ⟨hc, rfl⟩ | ⟨g, hg, rfl⟩
    · simp only [memB, Bool.and_eq_true, decide_eq_true_eq] at hm
      exact Or.inl ⟨hc, hm.1.1, hm.1.2, hm.2⟩
    · simp only [memB, Bool.and_eq_true, decide_eq_true_eq] at hm
      exact Or.inr (Or.inl ⟨hc, hm.1.1, hm.1.2, hm.2⟩)
    · simp only [memB, Bool.and_eq_true, decide_eq_true_eq] at hm
      exact Or.inr (Or.inr ⟨hm.1.1, hm.1.2, g, hg, hm.2⟩)
  · rintro (⟨hc, hx1, hx2, hm⟩ | ⟨hc, hx1, hx2, hm⟩ | ⟨hx1, hx2, g, hg, hm⟩)
    · exact ⟨(d.1, e.1 - 1) :: bs, (mem_burst_cons d e bs ss _).mpr (Or.inl ⟨hc, rfl⟩),
        by simp [memB, hx1, hx2, hm]⟩
    · exact ⟨(e.2 + 1, d.2) :: bs, (mem_burst_cons d e bs ss _).mpr (Or.inr (Or.inl ⟨hc, rfl⟩)),
        by simp [memB, hx1, hx2, hm]⟩
    · exact ⟨e :: g, (mem_burst_cons d e bs ss _).mpr (Or.inr (Or.inr ⟨g, hg, rfl⟩)),
        by simp [memB, hx1, hx2, hm]⟩

theorem burst_cover : ∀ (b s : Bounds), subB s b = true → nonemptyB s = true →
    ∀ p : List Int, (∃ f ∈ burstBounds b s, memB p f = true) ↔
      (memB p b = true ∧ memB p s = false) := by
  intro b
  induction b with
  | nil =>
    intro s hsub _ p
    cases s with
    | nil => cases p <;> simp [burstBounds, memB]
    | cons e ss => simp [subB] at hsub
  | cons d bs ih =>
    intro s hsub hne p
    cases s with
    | nil => simp [subB] at hsub
    | cons e ss =>
      simp only [subB, Bool.and_eq_true, decide_eq_true_eq] at hsub
      obtain ⟨⟨h1, h2⟩, hsub2⟩ := hsub
      simp only [nonemptyB, List.all_cons, Bool.and_eq_true, decide_eq_true_eq] at hne
      obtain ⟨h3, hne2⟩ := hne
      have hne2' : nonemptyB ss = true := by simpa [nonemptyB] using hne2
      cases p with
      | nil =>
        constructor
        · rintro ⟨f, hf, hm⟩
          have hlen := length_mem_burst _ _ _ hf
          cases f with
          | nil => simp at hlen
          | cons y g => simp [memB] at hm
        · rintro ⟨hb, _⟩
          simp [memB] at hb
      | cons x ps =>
        rw [exists_mem_burst_cons]
        have ihp := ih ss hsub2 hne2' ps
        simp only [memB, Bool.and_eq_true, decide_eq_true_eq, Bool.and_eq_false_iff,
          decide_eq_false_iff_not]
        by_cases hmb : memB ps bs = true <;> by_cases hms : memB ps ss = true <;>
          simp only [hmb, hms, ihp, and_true, and_false, true_and, false_and, or_false,
            exists_prop] <;>
          constructor <;> intro h <;>
          first
          | (rcases h with h | h | h <;> simp_all <;> omega)
          | (simp_all <;> omega)
          | omega
          | simp_all

theorem disjHead (y z : Int × Int) (bs cs : Bounds) (h : y.2 < z.1 ∨ z.2 < y.1) :
    ∀ p, ¬(memB p (y :: bs) = true ∧ memB p (z :: cs) = true) := by
  rintro p ⟨h1, h2⟩
  cases p with
  | nil => simp [memB] at h1
  | cons x ps =>
    simp only [memB, Bool.and_eq_true, decide_eq_true_eq] at h1 h2
    omega

theorem disjTail (y z : Int × Int) (bs cs : Bounds)
    (h : ∀ q, ¬(memB q bs = true ∧ memB q cs = true)) :
    ∀ p, ¬(memB p (y :: bs) = true ∧ memB p (z :: cs) = true) := by
  rintro p ⟨h1, h2⟩
  cases p with
  | nil => simp [memB] at h1
  | cons x ps =>
    simp only [memB, Bool.and_eq_true, decide_eq_true_eq] at h1 h2
    exact h ps ⟨h1.2, h2.2⟩

theorem burst_pairwise : ∀ (b s : Bounds), subB s b = true → nonemptyB s = true →
    (burstBounds b s).Pairwise (fun f g => ∀ p, ¬(memB p f = true ∧ memB p g = true)) := by
  intro b
  induction b with
  | nil =>
    intro s hsub _
    cases s with
    | nil => simp [burstBounds]
    | cons e ss => simp [subB] at hsub
  | cons d bs ih =>
    intro s hsub hne
    cases s with
    | nil => simp [subB] at hsub
    | cons e ss =>
      simp only [subB, Bool.and_eq_true, decide_eq_true_eq] at hsub
      obtain ⟨⟨h1, h2⟩, hsub2⟩ := hsub
      simp only [nonemptyB, List.all_cons, Bool.and_eq_true, decide_eq_true_eq] at hne
      obtain ⟨h3, hne2⟩ := hne
      have hne2' : nonemptyB ss = true := by simpa [nonemptyB] using hne2
      have hmap : ((burstBounds bs ss).map (fun f => e :: f)).Pairwise
          (fun f g => ∀ p, ¬(memB p f = true ∧ memB p g = true)) := by
        rw [List.pairwise_map]
        exact (ih ss hsub2 hne2').imp (fun hfg => disjTail e e _ _ hfg)
      have hcross2 : ∀ f ∈ (if e.2 < d.2 then [(e.2 + 1, d.2) :: bs] else []),
          ∀ g ∈ (burstBounds bs ss).map (fun h => e :: h),
          ∀ p, ¬(memB p f = true ∧ memB p g = true) := by
        intro f hf g hg
        by_cases hc : e.2 < d.2
        · simp only [hc, if_true, List.mem_singleton] at hf
          obtain ⟨g0, _, rfl⟩ := List.mem_map.mp hg
          subst hf
          exact disjHead _ _ _ _ (Or.inr (by simp))
        · simp [hc] at hf
      have htail : ((if e.2 < d.2 then [(e.2 + 1, d.2) :: bs] else []) ++
          (burstBounds bs ss).map (fun f => e :: f)).Pairwise
          (fun f g => ∀ p, ¬(memB p f = true ∧ memB p g = true)) := by
        refine List.pairwise_append.mpr ⟨?_, hmap, hcross2⟩
        by_cases hc : e.2 < d.2 <;> simp [hc]
      have hcross1 : ∀ f ∈ (if d.1 < e.1 then [(d.1, e.1 - 1) :: bs] else []),
          ∀ g ∈ (if e.2 < d.2 then [(e.2 + 1, d.2) :: bs] else []) ++
            (burstBounds bs ss).map (fun h => e :: h),
          ∀ p, ¬(memB p f = true ∧ memB p g = true) := by
        intro f hf g hg
        by_cases hc : d.1 < e.1
        · simp only [hc, if_true, List.mem_singleton] at hf
          subst hf
          rcases List.mem_append.mp hg with hg1 | hg2
          · by_cases hc2 : e.2 < d.2
            · simp only [hc2, if_true, List.mem_singleton] at hg1
              subst hg1
              exact disjHead _ _ _ _ (Or.inl (by simp; omega))
            · simp [hc2] at hg1
          · obtain ⟨g0, _, rfl⟩ := List.mem_map.mp hg2
            exact disjHead _ _ _ _ (Or.inl (by simp))
        · simp [hc] at hf
      have hhead : (if d.1 < e.1 then [(d.1, e.1 - 1) :: bs] else []).Pairwise
          (fun f g => ∀ p, ¬(memB p f = true ∧ memB p g = true)) := by
        by_cases hc : d.1 < e.1 <;> simp [hc]
      show ((if d.1 < e.1 then [(d.1, e.1 - 1) :: bs] else []) ++
          ((if e.2 < d.2 then [(e.2 + 1, d.2) :: bs] else []) ++
            (burstBounds bs ss).map (fun f => e :: f))).Pairwise _
      exact List.pairwise_append.mpr ⟨hhead, htail, hcross1⟩

theorem subB_interB : ∀ (b t : Bounds), b.length = t.length → subB (interB b t) b = true := by
  intro b
  induction b with
  | nil =>
    intro t hlen
    cases t with
    | nil => simp [interB, subB]
    | cons e ts => simp at hlen
  | cons d bs ih =>
    intro t hlen
    cases t with
    | nil => simp at hlen
    | cons e ts =>
      have hl : bs.length = ts.length := by simpa using hlen
      simp only [interB, List.zipWith_cons_cons, subB, Bool.and_eq_true, decide_eq_true_eq]
      exact ⟨⟨le_max_left _ _, min_le_left _ _⟩, ih ts hl⟩

theorem memB_false_of_empty (b : Bounds) (hne : nonemptyB b = false) (p : List Int) :
    memB p b = false := by
  by_contra hc
  have hm : memB p b = true := by
    cases hmb : memB p b
    · exact absurd hmb hc
    · rfl
  have := (nonemptyB_iff_pts_nonempty b).mpr ⟨p, (mem_pts b p).mpr hm⟩
  rw [this] at hne
  exact Bool.noConfusion hne

theorem ptsL_cons (b : Bounds) (L : List Bounds) : ptsL (b :: L) = pts b ∪ ptsL L := rfl

theorem mem_ptsL : ∀ (L : List Bounds) (p : List Int), p ∈ ptsL L ↔ ∃ b ∈ L, p ∈ pts b := by
  intro L p
  induction L with
  | nil => simp [ptsL]
  | cons b L ih =>
    rw [ptsL_cons, Finset.mem_union, ih]
    constructor
    · rintro (h | ⟨c, hc, hp⟩)
      · exact ⟨b, List.mem_cons_self b L, h⟩
      · exact ⟨c, List.mem_cons_of_mem b hc, hp⟩
    · rintro ⟨c, hc, hp⟩
      rcases List.mem_cons.mp hc with rfl | hc2
      · exact Or.inl hp
      · exact Or.inr ⟨c, hc2, hp⟩

theorem ptsL_append (L M : List Bounds) : ptsL (L ++ M) = ptsL L ∪ ptsL M := by
  induction L with
  | nil => simp [ptsL]
  | cons b L ih => simp [ptsL_cons, ih, Finset.union_assoc]

theorem pts_subset_ptsL (L : List Bounds) (b : Bounds) (hb : b ∈ L) : pts b ⊆ ptsL L :=
  fun p hp => (mem_ptsL L p).mpr ⟨b, hb, hp⟩

theorem ptsDisj_iff (f g : Bounds) :
    ptsDisj f g ↔ ∀ p, ¬(memB p f = true ∧ memB p g = true) := by
  rw [ptsDisj, Finset.eq_empty_iff_forall_not_mem]
  constructor
  · intro h p ⟨h1, h2⟩
    exact h p (Finset.mem_inter.mpr ⟨(mem_pts f p).mpr h1, (mem_pts g p).mpr h2⟩)
  · intro h p hp
    have := Finset.mem_inter.mp hp
    exact h p ⟨(mem_pts f p).mp this.1, (mem_pts g p).mp this.2⟩

theorem card_ptsL : ∀ L : List Bounds, L.Pairwise ptsDisj →
    (ptsL L).card = (L.map sizeB).sum := by
  intro L
  induction L with
  | nil => simp [ptsL]
  | cons b L ih =>
    intro hdisj
    have hd := List.pairwise_cons.mp hdisj
    have hdis : Disjoint (pts b) (ptsL L) := by
      rw [Finset.disjoint_left]
      intro p hp hq
      obtain ⟨c, hc, hpc⟩ := (mem_ptsL L p).mp hq
      have := (ptsDisj_iff b c).mp (hd.1 c hc) p
      exact this ⟨(mem_pts b p).mp hp, (mem_pts c p).mp hpc⟩
    rw [ptsL_cons, Finset.card_union_of_disjoint hdis, card_pts, ih hd.2]
    simp

theorem overlapFree (t u : Bounds) (hlen : t.length = u.length)
    (h : nonemptyB (interB t u) = false) : pts t ∩ pts u = ∅ := by
  rw [← pts_interB t u hlen, ← Finset.not_nonempty_iff_eq_empty,
    ← nonemptyB_iff_pts_nonempty, h]
  simp

theorem length_removeFromBox (b t : Bounds) (f : Bounds) (hf : f ∈ removeFromBox b t) :
    f.length = b.length := by
  rw [removeFromBox] at hf
  split at hf
  · exact length_mem_burst _ _ _ hf
  · simp_all

theorem ptsL_removeFromBox (b t : Bounds) (hlen : b.length = t.length) :
    ptsL (removeFromBox b t) = pts b \ pts t := by
  rw [removeFromBox]
  by_cases hne : nonemptyB (interB b t) = true
  · rw [if_pos hne]
    ext p
    rw [mem_ptsL, Finset.mem_sdiff]
    have hcov := burst_cover b (interB b t) (subB_interB b t hlen) hne p
    have hint := memB_interB b t p hlen
    constructor
    · rintro ⟨f, hf, hp⟩
      have hres := hcov.mp ⟨f, hf, (mem_pts f p).mp hp⟩
      refine ⟨(mem_pts b p).mpr hres.1, fun hc => ?_⟩
      have hmi : memB p (interB b t) = true := hint.mpr ⟨hres.1, (mem_pts t p).mp hc⟩
      rw [hres.2] at hmi
      exact Bool.noConfusion hmi
    · rintro ⟨h1, h2⟩
      have hmi : memB p (interB b t) = false := by
        cases hx : memB p (interB b t)
        · rfl
        · exact absurd ((mem_pts t p).mpr (hint.mp hx).2) h2
      obtain ⟨f, hf, hp⟩ := hcov.mpr ⟨(mem_pts b p).mp h1, hmi⟩
      exact ⟨f, hf, (mem_pts f p).mpr hp⟩
  · rw [if_neg hne]
    have hint : nonemptyB (interB b t) = false := by
      cases h : nonemptyB (interB b t)
      · rfl
      · exact absurd h hne
    ext p
    rw [mem_ptsL, Finset.mem_sdiff]
    constructor
    · rintro ⟨f, hf, hp⟩
      simp only [List.mem_singleton] at hf
      refine ⟨hf ▸ hp, fun hc => ?_⟩
      have hmi : memB p (interB b t) = true :=
        (memB_interB b t p hlen).mpr ⟨(mem_pts b p).mp (hf ▸ hp), (mem_pts t p).mp hc⟩
      rw [memB_false_of_empty _ hint p] at hmi
      exact Bool.noConfusion hmi
    · rintro ⟨h1, _⟩
      exact ⟨b, List.mem_singleton_self b, h1⟩

theorem pts_removeFromBox_subset (b t : Bounds) (hlen : b.length = t.length)
    (f : Bounds) (hf : f ∈ removeFromBox b t) : pts f ⊆ pts b \ pts t := by
  rw [← ptsL_removeFromBox b t hlen]
  exact pts_subset_ptsL _ f hf

theorem pairwise_removeFromBox (b t : Bounds) (hlen : b.length = t.length) :
    (removeFromBox b t).Pairwise ptsDisj := by
  rw [removeFromBox]
  by_cases hne : nonemptyB (interB b t) = true
  · rw [if_pos hne]
    exact (burst_pairwise b (interB b t) (subB_interB b t hlen) hne).imp
      (fun h => (ptsDisj_iff _ _).mpr h)
  · rw [if_neg hne]
    simp

theorem pairwise_flatMapD (L : List Bounds) (F : Bounds → List Bounds)
    (hin : ∀ b ∈ L, (F b).Pairwise ptsDisj)
    (hcross : L.Pairwise (fun b c => ∀ f ∈ F b, ∀ g ∈ F c, ptsDisj f g)) :
    (L.flatMap F).Pairwise ptsDisj := by
  induction L with
  | nil => simp
  | cons b L ih =>
    have hcons := List.pairwise_cons.mp hcross
    have hstep : (F b ++ L.flatMap F).Pairwise ptsDisj := by
      refine List.pairwise_append.mpr ⟨hin b (by simp), ?_, ?_⟩
      · exact ih (fun c hc => hin c (by simp [hc])) hcons.2
      · intro f hf g hg
        obtain ⟨c, hc, hgc⟩ := List.mem_flatMap.mp hg
        exact hcons.1 c hc f hf g hgc
    exact hstep

theorem ptsL_removeIntersectionsB (L : List Bounds) (t : Bounds)
    (hlen : ∀ b ∈ L, b.length = t.length) :
    ptsL (removeIntersectionsB L t) = ptsL L \ pts t := by
  induction L with
  | nil => simp [removeIntersectionsB, ptsL]
  | cons b L ih =>
    have hstep : removeIntersectionsB (b :: L) t =
        removeFromBox b t ++ removeIntersectionsB L t := rfl
    rw [hstep, ptsL_append, ptsL_removeFromBox b t (hlen b (by simp)),
      ih (fun c hc => hlen c (by simp [hc])), ptsL_cons, Finset.union_sdiff_distrib]

theorem removeIntersectionsB_props (L : List Bounds) (t : Bounds) (d : Nat)
    (hL : ∀ b ∈ L, b.length = d) (ht : t.length = d) (hdisj : L.Pairwise ptsDisj) :
    (∀ f ∈ removeIntersectionsB L t, f.length = d) ∧
      (removeIntersectionsB L t).Pairwise ptsDisj ∧
      ptsL (removeIntersectionsB L t) = ptsL L \ pts t := by
  refine ⟨?_, ?_, ?_⟩
  · intro f hf
    obtain ⟨b, hb, hfb⟩ := List.mem_flatMap.mp hf
    rw [length_removeFromBox b t f hfb]
    exact hL b hb
  · apply pairwise_flatMapD
    · intro b hb
      exact pairwise_removeFromBox b t (by rw [hL b hb, ht])
    · refine hdisj.imp_of_mem ?_
      intro b c hb hc hbc f hf g hg
      have hsb := pts_removeFromBox_subset b t (by rw [hL b hb, ht]) f hf
      have hsc := pts_removeFromBox_subset c t (by rw [hL c hc, ht]) g hg
      rw [ptsDisj] at hbc ⊢
      have hsub : pts f ∩ pts g ⊆ pts b ∩ pts c :=
        Finset.inter_subset_inter (hsb.trans Finset.sdiff_subset)
          (hsc.trans Finset.sdiff_subset)
      rw [hbc] at hsub
      exact Finset.subset_empty.mp hsub
  · exact ptsL_removeIntersectionsB L t (fun b hb => by rw [hL b hb, ht])

theorem removeIntersectionsListB_props (ts : List Bounds) : ∀ (L : List Bounds) (d : Nat),
    (∀ t ∈ ts, t.length = d) → (∀ b ∈ L, b.length = d) → L.Pairwise ptsDisj →
    (∀ f ∈ removeIntersectionsListB L ts, f.length = d) ∧
      (removeIntersectionsListB L ts).Pairwise ptsDisj ∧
      ptsL (removeIntersectionsListB L ts) = ptsL L \ ptsL ts := by
  induction ts with
  | nil =>
    intro L d _ hL hdisj
    refine ⟨hL, hdisj, ?_⟩
    simp [removeIntersectionsListB, ptsL]
  | cons t ts ih =>
    intro L d hts hL hdisj
    have ht : t.length = d := hts t (by simp)
    have hstep := removeIntersectionsB_props L t d hL ht hdisj
    have hrec := ih (removeIntersectionsB L t) d (fun u hu => hts u (by simp [hu]))
      hstep.1 hstep.2.1
    have hfold : removeIntersectionsListB L (t :: ts) =
        removeIntersectionsListB (removeIntersectionsB L t) ts := rfl
    refine ⟨by rw [hfold]; exact hrec.1, by rw [hfold]; exact hrec.2.1, ?_⟩
    rw [hfold, hrec.2.2, hstep.2.2, ptsL_cons]
    ext p
    simp only [Finset.mem_sdiff, Finset.mem_union]
    tauto

theorem intersectA_eq (A : Bounds) (ks : List Bounds) :
    intersectBoxesListB [A] ks =
      ks.filterMap (fun k => if nonemptyB (interB A k) then some (interB A k) else none) := by
  simp [intersectBoxesListB]

theorem mem_intersectA (A : Bounds) (ks : List Bounds) (f : Bounds) :
    f ∈ intersectBoxesListB [A] ks ↔
      ∃ k ∈ ks, nonemptyB (interB A k) = true ∧ interB A k = f := by
  rw [intersectA_eq, List.mem_filterMap]
  constructor
  · rintro ⟨k, hk, hsome⟩
    by_cases hc : nonemptyB (interB A k) = true
    · rw [if_pos hc] at hsome
      exact ⟨k, hk, hc, Option.some.inj hsome⟩
    · rw [if_neg hc] at hsome
      exact Option.noConfusion hsome
  · rintro ⟨k, hk, hc, heq⟩
    exact ⟨k, hk, by rw [if_pos hc, heq]⟩

theorem ptsL_intersectA (A : Bounds) : ∀ ks : List Bounds,
    (∀ k ∈ ks, k.length = A.length) →
    ptsL (intersectBoxesListB [A] ks) = pts A ∩ ptsL ks := by
  intro ks
  induction ks with
  | nil =>
    intro _
    simp [intersectBoxesListB, ptsL]
  | cons k ks ih =>
    intro hks
    have hk : k.length = A.length := hks k (by simp)
    have ih2 := ih (fun u hu => hks u (by simp [hu]))
    rw [intersectA_eq] at ih2 ⊢
    by_cases hc : nonemptyB (interB A k) = true
    · rw [List.filterMap_cons_some (b := interB A k) (by rw [if_pos hc]),
        ptsL_cons, ih2, pts_interB A k hk.symm, ptsL_cons,
        Finset.inter_union_distrib_left]
    · have hcf : nonemptyB (interB A k) = false := by
        cases h : nonemptyB (interB A k)
        · rfl
        · exact absurd h hc
      have hemp := overlapFree A k hk.symm hcf
      rw [List.filterMap_cons_none (by rw [if_neg hc]), ih2, ptsL_cons,
        Finset.inter_union_distrib_left, hemp, Finset.empty_union]

theorem pairwise_intersectA (A : Bounds) : ∀ ks : List Bounds,
    (∀ k ∈ ks, k.length = A.length) →
    ks.Pairwise (fun t u => nonemptyB (interB t u) = false) →
    (intersectBoxesListB [A] ks).Pairwise ptsDisj := by
  intro ks
  induction ks with
  | nil =>
    intro _ _
    simp [intersectBoxesListB]
  | cons k ks ih =>
    intro hks hdisj
    obtain ⟨hk1, hk2⟩ := List.pairwise_cons.mp hdisj
    have ihres := ih (fun u hu => hks u (by simp [hu])) hk2
    rw [intersectA_eq] at ihres ⊢
    by_cases hc : nonemptyB (interB A k) = true
    · simp only [List.filterMap_cons, hc, if_true]
      refine List.pairwise_cons.mpr ⟨?_, ihres⟩
      intro g hg
      have hg2 : g ∈ intersectBoxesListB [A] ks := by
        rw [intersectA_eq]
        exact hg
      obtain ⟨u, hu, _, hgu⟩ := (mem_intersectA A ks g).mp hg2
      have hlenu : u.length = A.length := hks u (by simp [hu])
      have hlenk : k.length = A.length := hks k (by simp)
      have hempty : pts k ∩ pts u = ∅ :=
        overlapFree k u (by omega) (hk1 u hu)
      rw [ptsDisj, ← hgu]
      have hsub : pts (interB A k) ∩ pts (interB A u) ⊆ pts k ∩ pts u := by
        rw [pts_interB A k hlenk.symm, pts_interB A u hlenu.symm]
        exact Finset.inter_subset_inter (Finset.inter_subset_right)
          (Finset.inter_subset_right)
      rw [hempty] at hsub
      exact Finset.subset_empty.mp hsub
    · simp only [List.filterMap_cons, hc]
      exact ihres

/-- C1: partition law.  For a box A and a takeaway set T whose members are pairwise
non-overlapping, the fragments produced by removeIntersections of {A} against T
together with the boxes produced by intersectBoxes of {A} against T are pairwise
non-overlapping and the sum of their index counts is exactly the index count of A. -/
theorem C1_partition_law (A : Bounds) (T : List Bounds)
    (hT : ∀ t ∈ T, t.length = A.length)
    (hdisjT : T.Pairwise (fun t u => nonemptyB (interB t u) = false)) :
    (removeIntersectionsListB [A] T ++ intersectBoxesListB [A] T).Pairwise ptsDisj ∧
      ((removeIntersectionsListB [A] T ++ intersectBoxesListB [A] T).map sizeB).sum =
        sizeB A := by
  have hLA : ∀ b ∈ [A], b.length = A.length := by simp
  have hD := removeIntersectionsListB_props T [A] A.length hT hLA (by simp)
  have hI := ptsL_intersectA A T hT
  have hIp := pairwise_intersectA A T hT hdisjT
  have hptsLA : ptsL [A] = pts A := by
    rw [ptsL_cons]
    simp [ptsL]
  have hpair : (removeIntersectionsListB [A] T ++ intersectBoxesListB [A] T).Pairwise
      ptsDisj := by
    refine List.pairwise_append.mpr ⟨hD.2.1, hIp, ?_⟩
    intro f hf g hg
    have hfsub : pts f ⊆ ptsL [A] \ ptsL T := by
      rw [← hD.2.2]
      exact pts_subset_ptsL _ f hf
    have hgsub : pts g ⊆ pts A ∩ ptsL T := by
      rw [← hI]
      exact pts_subset_ptsL _ g hg
    rw [ptsDisj]
    have hsub : pts f ∩ pts g ⊆ (ptsL [A] \ ptsL T) ∩ (pts A ∩ ptsL T) :=
      Finset.inter_subset_inter hfsub hgsub
    have hempty : (ptsL [A] \ ptsL T) ∩ (pts A ∩ ptsL T) = ∅ := by
      ext p
      simp only [Finset.mem_inter, Finset.mem_sdiff, Finset.not_mem_empty, iff_false]
      tauto
    rw [hempty] at hsub
    exact Finset.subset_empty.mp hsub
  refine ⟨hpair, ?_⟩
  rw [← card_ptsL _ hpair, ptsL_append, hD.2.2, hI, hptsLA,
    Finset.sdiff_union_inter, card_pts]

/-- C1 counterexample: with the one-dimensional box A = [0,9] and the takeaway set
holding the overlapping boxes [0,4] and [0,4] twice, the combined output of
removeIntersections and intersectBoxes overlaps itself and its index counts sum to
15, not A's 10 — so the law fails for takeaway sets with overlapping members. -/
theorem C1_counterexample :
    ¬((removeIntersectionsListB [[((0 : Int), (9 : Int))]]
          [[((0 : Int), (4 : Int))], [((0 : Int), (4 : Int))]] ++
        intersectBoxesListB [[((0 : Int), (9 : Int))]]
          [[((0 : Int), (4 : Int))], [((0 : Int), (4 : Int))]]).Pairwise ptsDisj ∧
      ((removeIntersectionsListB [[((0 : Int), (9 : Int))]]
          [[((0 : Int), (4 : Int))], [((0 : Int), (4 : Int))]] ++
        intersectBoxesListB [[((0 : Int), (9 : Int))]]
          [[((0 : Int), (4 : Int))], [((0 : Int), (4 : Int))]]).map sizeB).sum =
        sizeB [((0 : Int), (9 : Int))]) := by
  decide

/-- C1 witness: the partition law applied to the spec's own example, the box
[0,9] with the single takeaway box [3,12]. -/
theorem C1_partition_law_witness :
    (∀ t ∈ [[((3 : Int), (12 : Int))]], t.length = [((0 : Int), (9 : Int))].length) ∧
      ([[((3 : Int), (12 : Int))]].Pairwise
        (fun t u => nonemptyB (interB t u) = false)) ∧
      ((removeIntersectionsListB [[((0 : Int), (9 : Int))]] [[((3 : Int), (12 : Int))]] ++
          intersectBoxesListB [[((0 : Int), (9 : Int))]]
            [[((3 : Int), (12 : Int))]]).Pairwise ptsDisj ∧
        ((removeIntersectionsListB [[((0 : Int), (9 : Int))]] [[((3 : Int), (12 : Int))]] ++
            intersectBoxesListB [[((0 : Int), (9 : Int))]]
              [[((3 : Int), (12 : Int))]]).map sizeB).sum =
          sizeB [((0 : Int), (9 : Int))]) :=
  ⟨by decide, by decide,
    C1_partition_law [((0 : Int), (9 : Int))] [[((3 : Int), (12 : Int))]]
      (by decide) (by decide)⟩

/-- C9: the two-box removeIntersections variant on an (asserted empty) container
leaves the container holding exactly the non-overlapping fragments of box minus
box ∩ takeaway, and in the non-intersecting special case exactly the single box;
computeStencilBoxes relies on it to build the one-node-wide boundary layer of the
node box of its destination box. -/
theorem C9_remove2_box_minus_takeaway (box takeaway : Bounds)
    (hlen : box.length = takeaway.length) :
    (ptsL (removeIntersections2B box takeaway) = pts box \ pts takeaway ∧
      (removeIntersections2B box takeaway).Pairwise ptsDisj) ∧
      (nonemptyB (interB box takeaway) = false →
        removeIntersections2B box takeaway = [box]) ∧
      ptsL (computeStencilBoxes box) =
        pts (toNodeBox box) \
          pts (growBounds (toNodeBox box) (List.replicate box.length (-1))) := by
  refine ⟨⟨ptsL_removeFromBox box takeaway hlen, pairwise_removeFromBox box takeaway hlen⟩,
    ?_, ?_⟩
  · intro hno
    rw [removeIntersections2B, removeFromBox, if_neg (by rw [hno]; exact Bool.noConfusion)]
  · have hlen2 : (toNodeBox box).length =
        (growBounds (toNodeBox box) (List.replicate box.length (-1))).length := by
      simp [toNodeBox, growBounds, List.length_zipWith]
    exact ptsL_removeFromBox _ _ hlen2

/-- C9 witness: the two-box variant applied to the boxes [0,2] and [1,5]. -/
theorem C9_remove2_box_minus_takeaway_witness :
    ([((0 : Int), (2 : Int))] : Bounds).length = ([((1 : Int), (5 : Int))] : Bounds).length ∧
      (ptsL (removeIntersections2B [((0 : Int), (2 : Int))] [((1 : Int), (5 : Int))]) =
          pts [((0 : Int), (2 : Int))] \ pts [((1 : Int), (5 : Int))] ∧
        (removeIntersections2B [((0 : Int), (2 : Int))]
          [((1 : Int), (5 : Int))]).Pairwise ptsDisj) ∧
      (nonemptyB (interB [((0 : Int), (2 : Int))] [((1 : Int), (5 : Int))]) = false →
        removeIntersections2B [((0 : Int), (2 : Int))] [((1 : Int), (5 : Int))] =
          [[((0 : Int), (2 : Int))]]) ∧
      ptsL (computeStencilBoxes [((0 : Int), (2 : Int))]) =
        pts (toNodeBox [((0 : Int), (2 : Int))]) \
          pts (growBounds (toNodeBox [((0 : Int), (2 : Int))])
            (List.replicate ([((0 : Int), (2 : Int))] : Bounds).length (-1))) :=
  ⟨by decide, C9_remove2_box_minus_takeaway [((0 : Int), (2 : Int))]
    [((1 : Int), (5 : Int))] (by decide)⟩

theorem idLess_asymm (a b : BoxId) (h : idLess a b = true) : idLess b a = false := by
  obtain ⟨ao, al, ap⟩ := a
  obtain ⟨bo, bl, bp⟩ := b
  simp only [idLess, Bool.or_eq_true, Bool.and_eq_true, decide_eq_true_eq,
    Bool.or_eq_false_iff, Bool.and_eq_false_iff, decide_eq_false_iff_not] at h ⊢
  omega

theorem idLess_total (a b : BoxId) (hne : a ≠ b) :
    idLess a b = true ∨ idLess b a = true := by
  obtain ⟨ao, al, ap⟩ := a
  obtain ⟨bo, bl, bp⟩ := b
  simp only [ne_eq, BoxId.mk.injEq, not_and] at hne
  simp only [idLess, Bool.or_eq_true, Bool.and_eq_true, decide_eq_true_eq]
  by_cases h1 : ao = bo
  · by_cases h2 : al = bl
    · have := hne h1 h2
      omega
    · omega
  · omega

theorem mem_sortedInsert (b : Box) : ∀ (l : List Box) (x : Box),
    x ∈ sortedInsert b l ↔ x = b ∨ x ∈ l := by
  intro l
  induction l with
  | nil => intro x; simp [sortedInsert]
  | cons a rest ih =>
    intro x
    rw [sortedInsert]
    by_cases hc : idLess b.boxId a.boxId = true
    · simp [hc]
    · simp only [if_neg hc, List.mem_cons, ih]
      tauto

theorem length_sortedInsert (b : Box) : ∀ l : List Box,
    (sortedInsert b l).length = l.length + 1 := by
  intro l
  induction l with
  | nil => rfl
  | cons a rest ih =>
    rw [sortedInsert]
    by_cases hc : idLess b.boxId a.boxId = true
    · simp [hc]
    · simp [if_neg hc, ih]

theorem hasId_cons_false (a : Box) (rest : List Box) (i : BoxId)
    (h : hasId (a :: rest) i = false) : a.boxId ≠ i ∧ hasId rest i = false := by
  simp only [hasId, List.any_cons, Bool.or_eq_false_iff, beq_eq_false_iff_ne, ne_eq] at h
  simp only [hasId]
  exact ⟨h.1, h.2⟩

theorem sortedInsert_sorted (b : Box) : ∀ l : List Box, sortedById l = true →
    hasId l b.boxId = false → sortedById (sortedInsert b l) = true := by
  intro l
  induction l with
  | nil => intro _ _; rfl
  | cons a rest ih =>
    intro hs hid
    obtain ⟨hne, hid2⟩ := hasId_cons_false a rest b.boxId hid
    rw [sortedInsert]
    by_cases hc : idLess b.boxId a.boxId = true
    · rw [if_pos hc]
      show (idLess b.boxId a.boxId && sortedById (a :: rest)) = true
      rw [hc, hs]
      rfl
    · rw [if_neg hc]
      have hab : idLess a.boxId b.boxId = true := by
        rcases idLess_total a.boxId b.boxId (fun h => hne h) with h | h
        · exact h
        · exact absurd h hc
      cases rest with
      | nil =>
        show (idLess a.boxId b.boxId && sortedById [b]) = true
        rw [hab]
        rfl
      | cons r rest2 =>
        have hs2 : idLess a.boxId r.boxId = true ∧ sortedById (r :: rest2) = true := by
          have h0 : (idLess a.boxId r.boxId && sortedById (r :: rest2)) = true := hs
          simp only [Bool.and_eq_true] at h0
          exact h0
        have hrec := ih hs2.2 hid2
        rw [sortedInsert] at hrec ⊢
        by_cases hc2 : idLess b.boxId r.boxId = true
        · rw [if_pos hc2] at hrec ⊢
          show (idLess a.boxId b.boxId && sortedById (b :: r :: rest2)) = true
          rw [hab, hrec]
          rfl
        · rw [if_neg hc2] at hrec ⊢
          show (idLess a.boxId r.boxId && sortedById (r :: sortedInsert b rest2)) = true
          rw [hs2.1, hrec]
          rfl

theorem sortedInsert_append (b : Box) : ∀ (l1 l2 : List Box),
    (∀ x ∈ l1, idLess x.boxId b.boxId = true) →
    sortedInsert b (l1 ++ l2) = l1 ++ sortedInsert b l2 := by
  intro l1
  induction l1 with
  | nil => intro l2 _; rfl
  | cons x l1 ih =>
    intro l2 hall
    have hx : idLess x.boxId b.boxId = true := hall x (by simp)
    have hnb : idLess b.boxId x.boxId = false := idLess_asymm _ _ hx
    rw [List.cons_append, sortedInsert, if_neg (by rw [hnb]; exact Bool.noConfusion),
      ih l2 (fun y hy => hall y (by simp [hy]))]
    rfl

/-- C3: ordered insert of a single box.  Without an identity collision the insert
returns true, the size grows by one, and the box is placed by identity order (the
sequence stays identity-sorted); with a collision it returns false and the
container is unchanged.  The position-hint variant produces exactly the same final
container for every hint: placement is always determined by identity order. -/
theorem C3_ordered_insert (c : BoxContainer) (b : Box) (hord : c.ordered = true)
    (hsorted : sortedById c.boxes = true) :
    (hasId c.boxes b.boxId = false →
      insertC c b = .ok (true, { c with boxes := sortedInsert b c.boxes }) ∧
        sizeC { c with boxes := sortedInsert b c.boxes } = sizeC c + 1 ∧
        sortedById (sortedInsert b c.boxes) = true ∧
        b ∈ sortedInsert b c.boxes) ∧
      (hasId c.boxes b.boxId = true → insertC c b = .ok (false, c)) ∧
      (∀ hint : Nat, insertHintC c hint b =
        .ok { c with boxes :=
          (if hasId c.boxes b.boxId then c.boxes else sortedInsert b c.boxes) }) := by
  refine ⟨?_, ?_, ?_⟩
  · intro hid
    refine ⟨?_, ?_, sortedInsert_sorted b c.boxes hsorted hid,
      (mem_sortedInsert b c.boxes b).mpr (Or.inl rfl)⟩
    · rw [insertC, if_pos hord, if_neg (by rw [hid]; exact Bool.noConfusion)]
    · simp [sizeC, length_sortedInsert]
  · intro hid
    rw [insertC, if_pos hord, if_pos hid]
  · intro hint
    rw [insertHintC, if_pos hord]
    by_cases hid : hasId c.boxes b.boxId = true
    · rw [if_pos hid, if_pos hid]
    · rw [if_neg hid, if_neg hid]
      by_cases hall : (c.boxes.take hint).all (fun x => idLess x.boxId b.boxId) = true
      · rw [if_pos hall]
        have := sortedInsert_append b (c.boxes.take hint) (c.boxes.drop hint)
          (fun x hx => by
            have := List.all_eq_true.mp hall x hx
            exact this)
        rw [← this, List.take_append_drop]
      · rw [if_neg hall]

/-- C3 witness: insert into the ordered container holding one box of identity
(0,0,0) a box of identity (0,1,0). -/
theorem C3_ordered_insert_witness :
    ((⟨[⟨[((0 : Int), (3 : Int))], ⟨0, 0, 0⟩, 0⟩], true⟩ : BoxContainer).ordered = true ∧
      sortedById (⟨[⟨[((0 : Int), (3 : Int))], ⟨0, 0, 0⟩, 0⟩], true⟩ :
        BoxContainer).boxes = true) ∧
      (hasId (⟨[⟨[((0 : Int), (3 : Int))], ⟨0, 0, 0⟩, 0⟩], true⟩ :
          BoxContainer).boxes (⟨[((5 : Int), (6 : Int))], ⟨0, 1, 0⟩, 0⟩ : Box).boxId =
            false →
        insertC ⟨[⟨[((0 : Int), (3 : Int))], ⟨0, 0, 0⟩, 0⟩], true⟩
            ⟨[((5 : Int), (6 : Int))], ⟨0, 1, 0⟩, 0⟩ =
          .ok (true, { (⟨[⟨[((0 : Int), (3 : Int))], ⟨0, 0, 0⟩, 0⟩], true⟩ :
              BoxContainer) with
            boxes := sortedInsert ⟨[((5 : Int), (6 : Int))], ⟨0, 1, 0⟩, 0⟩
              (⟨[⟨[((0 : Int), (3 : Int))], ⟨0, 0, 0⟩, 0⟩], true⟩ :
                BoxContainer).boxes }) ∧
          sizeC { (⟨[⟨[((0 : Int), (3 : Int))], ⟨0, 0, 0⟩, 0⟩], true⟩ :
              BoxContainer) with
            boxes := sortedInsert ⟨[((5 : Int), (6 : Int))], ⟨0, 1, 0⟩, 0⟩
              (⟨[⟨[((0 : Int), (3 : Int))], ⟨0, 0, 0⟩, 0⟩], true⟩ :
                BoxContainer).boxes } =
            sizeC (⟨[⟨[((0 : Int), (3 : Int))], ⟨0, 0, 0⟩, 0⟩], true⟩ :
              BoxContainer) + 1 ∧
          sortedById (sortedInsert ⟨[((5 : Int), (6 : Int))], ⟨0, 1, 0⟩, 0⟩
            (⟨[⟨[((0 : Int), (3 : Int))], ⟨0, 0, 0⟩, 0⟩], true⟩ :
              BoxContainer).boxes) = true ∧
          (⟨[((5 : Int), (6 : Int))], ⟨0, 1, 0⟩, 0⟩ : Box) ∈
            sortedInsert ⟨[((5 : Int), (6 : Int))], ⟨0, 1, 0⟩, 0⟩
              (⟨[⟨[((0 : Int), (3 : Int))], ⟨0, 0, 0⟩, 0⟩], true⟩ :
                BoxContainer).boxes) :=
  ⟨⟨by decide, by decide⟩,
    (C3_ordered_insert ⟨[⟨[((0 : Int), (3 : Int))], ⟨0, 0, 0⟩, 0⟩], true⟩
      ⟨[((5 : Int), (6 : Int))], ⟨0, 1, 0⟩, 0⟩ (by decide) (by decide)).1⟩

/-- C4: the identity-keyed operations find, lowerBound, upperBound and erase-by-
identity fail with WrongModeError on an unordered container; ordered-style insert
succeeds on an empty unordered container — transitioning it to the ordered state —
and is a run-time error on a non-empty unordered container. -/
theorem C4_identity_ops_mode (c : BoxContainer) (b : Box) (hun : c.ordered = false) :
    (findC c b = .error .wrongMode ∧ lowerBoundC c b = .error .wrongMode ∧
      upperBoundC c b = .error .wrongMode ∧ eraseIdC c b = .error .wrongMode) ∧
      (c.boxes = [] → insertC c b = .ok (true, { boxes := [b], ordered := true })) ∧
      (c.boxes ≠ [] → insertC c b = .error .wrongMode) := by
  refine ⟨⟨?_, ?_, ?_, ?_⟩, ?_, ?_⟩
  · rw [findC, if_neg (by rw [hun]; exact Bool.noConfusion)]
  · rw [lowerBoundC, if_neg (by rw [hun]; exact Bool.noConfusion)]
  · rw [upperBoundC, if_neg (by rw [hun]; exact Bool.noConfusion)]
  · rw [eraseIdC, if_neg (by rw [hun]; exact Bool.noConfusion)]
  · intro hempty
    rw [insertC, if_neg (by rw [hun]; exact Bool.noConfusion),
      if_pos (by rw [hempty]; rfl)]
  · intro hne
    rw [insertC, if_neg (by rw [hun]; exact Bool.noConfusion),
      if_neg (by simpa [List.isEmpty_iff] using hne)]

/-- C4 witness: the identity-keyed operations on a non-empty unordered container and
ordered insert on the empty unordered container. -/
theorem C4_identity_ops_mode_witness :
    (⟨[], false⟩ : BoxContainer).ordered = false ∧
      ((⟨[], false⟩ : BoxContainer).boxes = [] →
        insertC ⟨[], false⟩ ⟨[((1 : Int), (2 : Int))], ⟨0, 0, 0⟩, 0⟩ =
          .ok (true, ⟨[⟨[((1 : Int), (2 : Int))], ⟨0, 0, 0⟩, 0⟩], true⟩)) :=
  ⟨by decide,
    (C4_identity_ops_mode ⟨[], false⟩ ⟨[((1 : Int), (2 : Int))], ⟨0, 0, 0⟩, 0⟩
      (by decide)).2.1⟩

/-- C2 (amended): the geometric transforms grow/shift/refine/coarsen never fail in
either mode; pushFront/pushBack, popFront/popBack, spliceFront/spliceBack and the
calculus operations removeIntersections/intersectBoxes/coalesce/simplify are
unordered-only, failing with WrongModeError exactly on ordered containers; rotate
is likewise unordered-only and additionally fails with MixedBlockError exactly when
the members span several blocks, succeeding on an unordered single-block container
of 2-D/3-D members. -/
theorem C2_mode_contract :
    (∀ (c : BoxContainer) (g : List Int), ∃ r, growE c g = .ok r) ∧
      (∀ (c : BoxContainer) (v : List Int), ∃ r, shiftE c v = .ok r) ∧
      (∀ (c : BoxContainer) (v : List Int), ∃ r, refineE c v = .ok r) ∧
      (∀ (c : BoxContainer) (v : List Int), ∃ r, coarsenE c v = .ok r) ∧
      (∀ (c : BoxContainer) (b : Box),
        pushFrontE c b = .error .wrongMode ↔ c.ordered = true) ∧
      (∀ (c : BoxContainer) (b : Box),
        pushBackE c b = .error .wrongMode ↔ c.ordered = true) ∧
      (∀ c : BoxContainer, popFrontE c = .error .wrongMode ↔ c.ordered = true) ∧
      (∀ c : BoxContainer, popBackE c = .error .wrongMode ↔ c.ordered = true) ∧
      (∀ c o : BoxContainer,
        spliceFrontE c o = .error .wrongMode ↔ c.ordered = true) ∧
      (∀ c o : BoxContainer,
        spliceBackE c o = .error .wrongMode ↔ c.ordered = true) ∧
      (∀ c t : BoxContainer,
        removeIntersectionsE c t = .error .wrongMode ↔ c.ordered = true) ∧
      (∀ c k : BoxContainer,
        intersectBoxesE c k = .error .wrongMode ↔ c.ordered = true) ∧
      (∀ c : BoxContainer, coalesceE c = .error .wrongMode ↔ c.ordered = true) ∧
      (∀ c : BoxContainer, simplifyE c = .error .wrongMode ↔ c.ordered = true) ∧
      (∀ (c : BoxContainer) (i : Nat), rotateE c i = .error .mixedBlock ↔
        (c.ordered = false ∧ sameBlock c = false)) ∧
      (∀ (c : BoxContainer) (i : Nat), c.ordered = false → sameBlock c = true →
        rotDimOk c = true → ∃ r, rotateE c i = .ok r) := by
  refine ⟨fun c g => ⟨_, rfl⟩, fun c v => ⟨_, rfl⟩, fun c v => ⟨_, rfl⟩,
    fun c v => ⟨_, rfl⟩, ?_, ?_, ?_, ?_, ?_, ?_, ?_, ?_, ?_, ?_, ?_, ?_⟩
  · intro c b
    cases h : c.ordered <;> simp [pushFrontE, h]
  · intro c b
    cases h : c.ordered <;> simp [pushBackE, h]
  · intro c
    cases h : c.ordered
    · rw [popFrontE, if_neg (by rw [h]; exact Bool.noConfusion)]
      cases c.boxes <;> simp
    · rw [popFrontE, if_pos h]
      simp
  · intro c
    cases h : c.ordered
    · rw [popBackE, if_neg (by rw [h]; exact Bool.noConfusion)]
      cases hb : c.boxes.isEmpty <;> simp [hb]
    · rw [popBackE, if_pos h]
      simp
  · intro c o
    cases h : c.ordered <;> simp [spliceFrontE, h]
  · intro c o
    cases h : c.ordered <;> simp [spliceBackE, h]
  · intro c t
    cases h : c.ordered <;> simp [removeIntersectionsE, h]
  · intro c k
    cases h : c.ordered <;> simp [intersectBoxesE, h]
  · intro c
    cases h : c.ordered <;> simp [coalesceE, h]
  · intro c
    cases h : c.ordered <;> simp [simplifyE, h]
  · intro c i
    cases h : c.ordered
    · rw [rotateE, if_neg (by rw [h]; exact Bool.noConfusion)]
      cases hsb : sameBlock c
      · rw [if_pos rfl]
        simp
      · rw [if_neg (by simp)]
        cases hd : rotDimOk c
        · rw [if_pos rfl]
          simp [hsb]
        · rw [if_neg (by simp)]
          simp [hsb]
    · rw [rotateE, if_pos h]
      simp [h]
  · intro c i hord hsb hd
    rw [rotateE, if_neg (by rw [hord]; exact Bool.noConfusion),
      if_neg (by rw [hsb]; exact Bool.noConfusion),
      if_neg (by rw [hd]; exact Bool.noConfusion)]
    exact ⟨_, rfl⟩

/-- C2 counterexample: pushFront — claimed mode-agnostic — fails with WrongModeError
on an (empty) ordered container. -/
theorem C2_counterexample :
    pushFrontE ⟨[], true⟩ ⟨[((0 : Int), (0 : Int))], ⟨0, 0, 0⟩, 0⟩ =
      .error .wrongMode := rfl

/-- C2 witness: rotate succeeds on an unordered, single-block, 2-D container. -/
theorem C2_mode_contract_witness :
    ((⟨[⟨[((0 : Int), (1 : Int)), ((0 : Int), (2 : Int))], ⟨0, 0, 0⟩, 0⟩], false⟩ :
        BoxContainer).ordered = false ∧
      sameBlock ⟨[⟨[((0 : Int), (1 : Int)), ((0 : Int), (2 : Int))], ⟨0, 0, 0⟩, 0⟩],
        false⟩ = true ∧
      rotDimOk ⟨[⟨[((0 : Int), (1 : Int)), ((0 : Int), (2 : Int))], ⟨0, 0, 0⟩, 0⟩],
        false⟩ = true) ∧
      ∃ r, rotateE ⟨[⟨[((0 : Int), (1 : Int)), ((0 : Int), (2 : Int))], ⟨0, 0, 0⟩, 0⟩],
        false⟩ 1 = .ok r :=
  ⟨⟨by decide, by decide, by decide⟩,
    C2_mode_contract.2.2.2.2.2.2.2.2.2.2.2.2.2.2.2
      ⟨[⟨[((0 : Int), (1 : Int)), ((0 : Int), (2 : Int))], ⟨0, 0, 0⟩, 0⟩], false⟩ 1
      (by decide) (by decide) (by decide)⟩

theorem hasId_iff_mem_map (l : List Box) (i : BoxId) :
    hasId l i = true ↔ i ∈ l.map (fun x => x.boxId) := by
  simp only [hasId, List.any_eq_true, List.mem_map, beq_iff_eq]

theorem setIncl_perm (l1 l2 : List Box) (hp : l1.Perm l2) : setIncl l1 l2 = true := by
  rw [setIncl, List.all_eq_true]
  intro a ha
  rw [List.any_eq_true]
  exact ⟨a, hp.mem_iff.mp ha, by simp [spatiallyEqual]⟩

/-- C7: equality policy.  When both containers are ordered, operator== holds exactly
when the member identity sequences pair up identically; in every other mode
combination (both unordered, or mixed) it holds exactly when the two member
sequences are spatially equal as sets; two unordered containers holding the same
boxes in any order compare equal; two ordered containers where one has an identity
the other lacks compare unequal. -/
theorem C7_equality_policy :
    (∀ a b : BoxContainer, a.ordered = true → b.ordered = true →
      (eqC a b = true ↔
        a.boxes.map (fun x => x.boxId) = b.boxes.map (fun x => x.boxId))) ∧
      (∀ a b : BoxContainer, (a.ordered && b.ordered) = false →
        (eqC a b = true ↔
          (setIncl a.boxes b.boxes = true ∧ setIncl b.boxes a.boxes = true))) ∧
      (∀ a b : BoxContainer, a.ordered = false → b.ordered = false →
        a.boxes.Perm b.boxes → eqC a b = true) ∧
      (∀ a b : BoxContainer, a.ordered = true → b.ordered = true → ∀ i : BoxId,
        hasId a.boxes i = true → hasId b.boxes i = false → eqC a b = false) := by
  have hcase2 : ∀ a b : BoxContainer, (a.ordered && b.ordered) = false →
      (eqC a b = true ↔
        (setIncl a.boxes b.boxes = true ∧ setIncl b.boxes a.boxes = true)) := by
    intro a b h
    rw [eqC, if_neg (by rw [h]; exact Bool.noConfusion)]
    exact Bool.and_eq_true _ _ ▸ Iff.rfl
  refine ⟨?_, hcase2, ?_, ?_⟩
  · intro a b ha hb
    rw [eqC, if_pos (by rw [ha, hb]; rfl)]
    exact beq_iff_eq
  · intro a b ha hb hp
    rw [hcase2 a b (by rw [ha, hb]; rfl)]
    exact ⟨setIncl_perm _ _ hp, setIncl_perm _ _ hp.symm⟩
  · intro a b ha hb i hia hib
    cases heq : eqC a b
    · rfl
    · exfalso
      rw [eqC, if_pos (by rw [ha, hb]; rfl)] at heq
      have hmaps : a.boxes.map (fun x => x.boxId) = b.boxes.map (fun x => x.boxId) :=
        beq_iff_eq.mp heq
      have := (hasId_iff_mem_map a.boxes i).mp hia
      rw [hmaps] at this
      rw [(hasId_iff_mem_map b.boxes i).mpr this] at hib
      exact Bool.noConfusion hib

/-- C7 witness: two unordered containers holding the same two boxes in opposite
insertion order compare equal. -/
theorem C7_equality_policy_witness :
    ((⟨[⟨[((0 : Int), (1 : Int))], ⟨0, 0, 0⟩, 0⟩,
        ⟨[((4 : Int), (5 : Int))], ⟨0, 1, 0⟩, 0⟩], false⟩ : BoxContainer).ordered =
        false ∧
      (⟨[⟨[((4 : Int), (5 : Int))], ⟨0, 1, 0⟩, 0⟩,
        ⟨[((0 : Int), (1 : Int))], ⟨0, 0, 0⟩, 0⟩], false⟩ : BoxContainer).ordered =
        false ∧
      (⟨[⟨[((0 : Int), (1 : Int))], ⟨0, 0, 0⟩, 0⟩,
        ⟨[((4 : Int), (5 : Int))], ⟨0, 1, 0⟩, 0⟩], false⟩ :
          BoxContainer).boxes.Perm
        (⟨[⟨[((4 : Int), (5 : Int))], ⟨0, 1, 0⟩, 0⟩,
          ⟨[((0 : Int), (1 : Int))], ⟨0, 0, 0⟩, 0⟩], false⟩ :
            BoxContainer).boxes) ∧
      eqC ⟨[⟨[((0 : Int), (1 : Int))], ⟨0, 0, 0⟩, 0⟩,
          ⟨[((4 : Int), (5 : Int))], ⟨0, 1, 0⟩, 0⟩], false⟩
        ⟨[⟨[((4 : Int), (5 : Int))], ⟨0, 1, 0⟩, 0⟩,
          ⟨[((0 : Int), (1 : Int))], ⟨0, 0, 0⟩, 0⟩], false⟩ = true :=
  ⟨⟨by decide, by decide, List.Perm.swap _ _ []⟩,
    C7_equality_policy.2.2.1
      ⟨[⟨[((0 : Int), (1 : Int))], ⟨0, 0, 0⟩, 0⟩,
        ⟨[((4 : Int), (5 : Int))], ⟨0, 1, 0⟩, 0⟩], false⟩
      ⟨[⟨[((4 : Int), (5 : Int))], ⟨0, 1, 0⟩, 0⟩,
        ⟨[((0 : Int), (1 : Int))], ⟨0, 0, 0⟩, 0⟩], false⟩
      (by decide) (by decide) (List.Perm.swap _ _ [])⟩

theorem shiftBounds_round : ∀ (b : Bounds) (v : List Int), b.length = v.length →
    shiftBounds (shiftBounds b v) (v.map (fun x => -x)) = b := by
  intro b
  induction b with
  | nil =>
    intro v h
    cases v with
    | nil => rfl
    | cons x vs => simp at h
  | cons d bs ih =>
    intro v h
    cases v with
    | nil => simp at h
    | cons x vs =>
      have hh : bs.length = vs.length := by simpa using h
      simp only [shiftBounds, List.map_cons, List.zipWith_cons_cons, List.cons.injEq]
      refine ⟨?_, ih vs hh⟩
      obtain ⟨dl, dh⟩ := d
      simp only [Prod.mk.injEq]
      omega

theorem map_shift_round (v : List Int) : ∀ l : List Box,
    (∀ b ∈ l, b.bounds.length = v.length) →
    (l.map (fun b => { b with bounds := shiftBounds b.bounds v })).map
      (fun b => { b with bounds := shiftBounds b.bounds (v.map (fun x => -x)) }) =
      l := by
  intro l
  induction l with
  | nil => intro _; rfl
  | cons b l ih =>
    intro hall
    simp only [List.map_cons, List.cons.injEq]
    refine ⟨?_, ih (fun x hx => hall x (by simp [hx]))⟩
    show ({ b with bounds := (shiftBounds (shiftBounds b.bounds v)
      (v.map (fun x => -x))) } : Box) = b
    rw [shiftBounds_round b.bounds v (hall b (by simp))]

/-- C8: shift round trip.  Shifting every member by the offset v and then by -v
restores the container exactly: same members, same order, same mode. -/
theorem C8_shift_round_trip (c : BoxContainer) (v : List Int)
    (hdim : ∀ b ∈ c.boxes, b.bounds.length = v.length) :
    (shiftE c v).bind (fun c2 => shiftE c2 (v.map (fun x => -x))) = .ok c := by
  have h2 : (shiftE c v).bind (fun c2 => shiftE c2 (v.map (fun x => -x))) =
      Except.ok { c with boxes :=
        ((c.boxes.map (fun b => { b with bounds := shiftBounds b.bounds v })).map
          (fun b =>
            { b with bounds := (shiftBounds b.bounds (v.map (fun x => -x))) })) } :=
    rfl
  rw [h2, map_shift_round v c.boxes hdim]

/-- C8 witness: the round trip on a one-member unordered container and the offset
vector (7). -/
theorem C8_shift_round_trip_witness :
    (∀ b ∈ (⟨[⟨[((0 : Int), (3 : Int))], ⟨0, 0, 0⟩, 0⟩], false⟩ :
        BoxContainer).boxes, b.bounds.length = [(7 : Int)].length) ∧
      (shiftE ⟨[⟨[((0 : Int), (3 : Int))], ⟨0, 0, 0⟩, 0⟩], false⟩ [(7 : Int)]).bind
        (fun c2 => shiftE c2 ([(7 : Int)].map (fun x => -x))) =
        .ok ⟨[⟨[((0 : Int), (3 : Int))], ⟨0, 0, 0⟩, 0⟩], false⟩ :=
  ⟨by decide,
    C8_shift_round_trip ⟨[⟨[((0 : Int), (3 : Int))], ⟨0, 0, 0⟩, 0⟩], false⟩
      [(7 : Int)] (by decide)⟩

theorem mem_insertIfNew (l : List Box) (b x : Box) (hx : x ∈ l) :
    x ∈ insertIfNew l b := by
  rw [insertIfNew]
  by_cases h : hasId l b.boxId = true
  · rw [if_pos h]
    exact hx
  · rw [if_neg h]
    exact (mem_sortedInsert b l x).mpr (Or.inr hx)

theorem hasId_mono_insertIfNew (l : List Box) (b : Box) (i : BoxId)
    (h : hasId l i = true) : hasId (insertIfNew l b) i = true := by
  rw [hasId, List.any_eq_true] at h ⊢
  obtain ⟨x, hx, hbeq⟩ := h
  exact ⟨x, mem_insertIfNew l b x hx, hbeq⟩

theorem hasId_insertIfNew_self (l : List Box) (b : Box) :
    hasId (insertIfNew l b) b.boxId = true := by
  rw [insertIfNew]
  by_cases h : hasId l b.boxId = true
  · rw [if_pos h]
    exact h
  · rw [if_neg h, hasId, List.any_eq_true]
    exact ⟨b, (mem_sortedInsert b l b).mpr (Or.inl rfl), by simp⟩

theorem foldl_insertIfNew_mem (f : Box → Box) : ∀ (l acc : List Box) (x : Box),
    x ∈ acc → x ∈ l.foldl (fun a b => insertIfNew a (f b)) acc := by
  intro l
  induction l with
  | nil => intro acc x hx; exact hx
  | cons hd tl ih =>
    intro acc x hx
    exact ih (insertIfNew acc (f hd)) x (mem_insertIfNew acc (f hd) x hx)

theorem foldl_insertIfNew_hasId (f : Box → Box) : ∀ (l acc : List Box) (i : BoxId),
    hasId acc i = true → hasId (l.foldl (fun a b => insertIfNew a (f b)) acc) i = true := by
  intro l
  induction l with
  | nil => intro acc i h; exact h
  | cons hd tl ih =>
    intro acc i h
    exact ih (insertIfNew acc (f hd)) i (hasId_mono_insertIfNew acc (f hd) i h)

theorem foldl_insertIfNew_id_present (f : Box → Box) : ∀ (l acc : List Box) (b : Box),
    b ∈ l → hasId (l.foldl (fun a b => insertIfNew a (f b)) acc) (f b).boxId = true := by
  intro l
  induction l with
  | nil => intro acc b hb; simp at hb
  | cons hd tl ih =>
    intro acc b hb
    rcases List.mem_cons.mp hb with rfl | hb2
    · exact foldl_insertIfNew_hasId f tl (insertIfNew acc (f b)) (f b).boxId
        (hasId_insertIfNew_self acc (f b))
    · exact ih (insertIfNew acc (f hd)) b hb2

/-- C10 (amended): separatePeriodicImages and unshiftPeriodicImageBoxes never clear
their outputs and leave the source container unchanged: separatePeriodicImages
appends the real members and the periodic-image members after the outputs' prior
contents; unshiftPeriodicImageBoxes keeps every prior member of the output
container and inserts each member's unshifted version by identity, so every
member's unshifted identity is represented in the output (an unshifted box whose
identity already exists in the output is dropped by the ordered insert rather than
appended). -/
theorem C10_output_accumulation :
    (∀ (c : BoxContainer) (realV perV : List Box),
      (separatePeriodicImages c realV perV).1 = c ∧
        (separatePeriodicImages c realV perV).2.1 =
          realV ++ c.boxes.filter (fun b => !isPeriodic b) ∧
        (separatePeriodicImages c realV perV).2.2 =
          perV ++ c.boxes.filter (fun b => isPeriodic b)) ∧
      (∀ (c out : BoxContainer) (cat : Nat → List Int) (ratio : Int),
        (unshiftPeriodicImageBoxes c out cat ratio).1 = c ∧
          (∀ x ∈ out.boxes,
            x ∈ (unshiftPeriodicImageBoxes c out cat ratio).2.boxes) ∧
          (∀ b ∈ c.boxes,
            hasId (unshiftPeriodicImageBoxes c out cat ratio).2.boxes
              (unshiftBox cat ratio b).boxId = true)) := by
  refine ⟨fun c realV perV => ⟨rfl, rfl, rfl⟩, fun c out cat ratio => ⟨rfl, ?_, ?_⟩⟩
  · intro x hx
    exact foldl_insertIfNew_mem (unshiftBox cat ratio) c.boxes out.boxes x hx
  · intro b hb
    exact foldl_insertIfNew_id_present (unshiftBox cat ratio) c.boxes out.boxes b hb

/-- C10 witness: a prior member of the output container is still present after
unshiftPeriodicImageBoxes, and the source member's identity is represented. -/
theorem C10_output_accumulation_witness :
    ((⟨[((0 : Int), (0 : Int))], ⟨0, 9, 0⟩, 0⟩ : Box) ∈
        (⟨[⟨[((0 : Int), (0 : Int))], ⟨0, 9, 0⟩, 0⟩], true⟩ : BoxContainer).boxes) ∧
      ((⟨[((0 : Int), (0 : Int))], ⟨0, 9, 0⟩, 0⟩ : Box) ∈
        (unshiftPeriodicImageBoxes ⟨[⟨[((3 : Int), (4 : Int))], ⟨0, 1, 0⟩, 0⟩], true⟩
          ⟨[⟨[((0 : Int), (0 : Int))], ⟨0, 9, 0⟩, 0⟩], true⟩
          (fun _ => [0]) 1).2.boxes) :=
  ⟨by decide,
    (C10_output_accumulation.2
      ⟨[⟨[((3 : Int), (4 : Int))], ⟨0, 1, 0⟩, 0⟩], true⟩
      ⟨[⟨[((0 : Int), (0 : Int))], ⟨0, 9, 0⟩, 0⟩], true⟩
      (fun _ => [0]) 1).2.1 ⟨[((0 : Int), (0 : Int))], ⟨0, 9, 0⟩, 0⟩ (by decide)⟩

/-- C10 counterexample: when the output container already holds a box with the same
identity, the member's unshifted version is not added — the ordered insert drops
it — so the unshifted members are not unconditionally appended. -/
theorem C10_counterexample :
    ¬(unshiftBox (fun _ => [0]) 1 ⟨[((5 : Int), (5 : Int))], ⟨0, 1, 0⟩, 0⟩ ∈
        (unshiftPeriodicImageBoxes ⟨[⟨[((5 : Int), (5 : Int))], ⟨0, 1, 0⟩, 0⟩], true⟩
          ⟨[⟨[((0 : Int), (0 : Int))], ⟨0, 1, 0⟩, 0⟩], true⟩
          (fun _ => [0]) 1).2.boxes) := by
  decide

theorem canCoalesce_len (a b : Bounds) (h : canCoalesce a b = true) :
    a.length = b.length := by
  rw [canCoalesce, Bool.and_eq_true] at h
  exact Nat.beq_eq_true_eq _ _ ▸ h.1

theorem memB_hullB : ∀ (a b : Bounds) (p : List Int), a.length = b.length →
    (memB p a = true ∨ memB p b = true) → memB p (hullB a b) = true := by
  intro a
  induction a with
  | nil =>
    intro b p hlen hm
    cases b with
    | nil =>
      cases p with
      | nil => rfl
      | cons x ps => rcases hm with h | h <;> simp [memB] at h
    | cons e bs => simp at hlen
  | cons d as ih =>
    intro b p hlen hm
    cases b with
    | nil => simp at hlen
    | cons e bs =>
      cases p with
      | nil => rcases hm with h | h <;> simp [memB] at h
      | cons x ps =>
        have hl : as.length = bs.length := by simpa using hlen
        simp only [hullB, List.zipWith_cons_cons, memB, Bool.and_eq_true,
          decide_eq_true_eq] at hm ⊢
        rcases hm with ⟨⟨h1, h2⟩, h3⟩ | ⟨⟨h1, h2⟩, h3⟩
        · exact ⟨⟨by omega, by omega⟩, ih bs ps hl (Or.inl h3)⟩
        · exact ⟨⟨by omega, by omega⟩, ih bs ps hl (Or.inr h3)⟩

theorem pts_union_subset_hull (a b : Bounds) (hlen : a.length = b.length) :
    pts a ∪ pts b ⊆ pts (hullB a b) := by
  intro p hp
  rw [mem_pts]
  rcases Finset.mem_union.mp hp with h | h
  · exact memB_hullB a b p hlen (Or.inl ((mem_pts a p).mp h))
  · exact memB_hullB a b p hlen (Or.inr ((mem_pts b p).mp h))

theorem card_pts_union (a b : Bounds) (hlen : a.length = b.length) :
    (pts a ∪ pts b).card = sizeB a + sizeB b - sizeB (interB a b) := by
  have h1 := Finset.card_union_add_card_inter (pts a) (pts b)
  have h2 : (pts a ∩ pts b).card = sizeB (interB a b) := by
    rw [← pts_interB a b hlen, card_pts]
  have h3 := card_pts a
  have h4 := card_pts b
  omega

theorem sizeB_inter_le (a b : Bounds) (hlen : a.length = b.length) :
    sizeB (interB a b) ≤ sizeB a := by
  rw [← card_pts, ← card_pts, pts_interB a b hlen]
  exact Finset.card_le_card (Finset.inter_subset_left)

theorem canCoalesce_iff (a b : Bounds) (hlen : a.length = b.length) :
    canCoalesce a b = true ↔ pts (hullB a b) = pts a ∪ pts b := by
  rw [canCoalesce, Bool.and_eq_true]
  have hlen2 : (a.length == b.length) = true := by
    rw [Nat.beq_eq_true_eq]
    exact hlen
  constructor
  · rintro ⟨_, hsz⟩
    rw [Nat.beq_eq_true_eq] at hsz
    refine (Finset.eq_of_subset_of_card_le (pts_union_subset_hull a b hlen) ?_).symm
    rw [card_pts, card_pts_union a b hlen, hsz]
  · intro hpts
    refine ⟨hlen2, ?_⟩
    rw [Nat.beq_eq_true_eq, ← card_pts (hullB a b), hpts, card_pts_union a b hlen]

theorem nonemptyB_hullB (a b : Bounds) (hlen : a.length = b.length)
    (ha : nonemptyB a = true) (hb : nonemptyB b = true) :
    nonemptyB (hullB a b) = true := by
  obtain ⟨p, hp⟩ := (nonemptyB_iff_pts_nonempty a).mp ha
  exact (nonemptyB_iff_pts_nonempty _).mpr
    ⟨p, (mem_pts _ p).mpr (memB_hullB a b p hlen (Or.inl ((mem_pts a p).mp hp)))⟩

theorem findCoalesce_spec : ∀ (xs : List Bounds) (b h : Bounds) (ys : List Bounds),
    findCoalesce b xs = some (h, ys) →
    ∃ x, canCoalesce b x = true ∧ h = hullB b x ∧ x ∈ xs ∧
      ys.length + 1 = xs.length ∧ (∀ f ∈ ys, f ∈ xs) ∧
      ptsL xs = pts x ∪ ptsL ys := by
  intro xs
  induction xs with
  | nil => intro b h ys hf; simp [findCoalesce] at hf
  | cons x xs ih =>
    intro b h ys hf
    rw [findCoalesce] at hf
    by_cases hc : canCoalesce b x = true
    · rw [if_pos hc] at hf
      injection hf with hf2
      injection hf2 with hh hys
      subst hh
      subst hys
      exact ⟨x, hc, rfl, by simp, by simp, fun f hf => by simp [hf], (ptsL_cons x xs)⟩
    · rw [if_neg hc] at hf
      cases hrec : findCoalesce b xs with
      | none => rw [hrec] at hf; exact Option.noConfusion hf
      | some pr =>
        obtain ⟨h0, ys0⟩ := pr
        rw [hrec] at hf
        injection hf with hf2
        injection hf2 with hh hys
        subst hh
        subst hys
        obtain ⟨x0, hcan, hhull, hmem, hlen, hsub, hpts⟩ := ih b h0 ys0 hrec
        refine ⟨x0, hcan, hhull, by simp [hmem], by simp [← hlen], ?_, ?_⟩
        · intro f hf2
          rcases List.mem_cons.mp hf2 with rfl | hf3
          · simp
          · simp [hsub f hf3]
        · rw [ptsL_cons, hpts, ptsL_cons]
          ext p
          simp only [Finset.mem_union]
          tauto

theorem coalescePass_spec : ∀ (l l2 : List Bounds), coalescePass l = some l2 →
    l2.length + 1 = l.length ∧ ptsL l2 = ptsL l ∧
      (∀ f ∈ l2, f ∈ l ∨ ∃ a b, a ∈ l ∧ b ∈ l ∧ canCoalesce a b = true ∧
        f = hullB a b) := by
  intro l
  induction l with
  | nil => intro l2 hp; simp [coalescePass] at hp
  | cons b bs ih =>
    intro l2 hp
    rw [coalescePass] at hp
    cases hfc : findCoalesce b bs with
    | some pr =>
      obtain ⟨h, rest⟩ := pr
      rw [hfc] at hp
      injection hp with hl2
      subst hl2
      obtain ⟨x, hcan, hhull, hmem, hlen, hsub, hpts⟩ := findCoalesce_spec bs b h rest hfc
      refine ⟨by simp [← hlen], ?_, ?_⟩
      · rw [ptsL_cons, ptsL_cons, hpts]
        have hhpts : pts h = pts b ∪ pts x := by
          rw [hhull]
          exact (canCoalesce_iff b x (canCoalesce_len b x hcan)).mp hcan
        rw [hhpts]
        ext p
        simp only [Finset.mem_union]
        tauto
      · intro f hf
        rcases List.mem_cons.mp hf with rfl | hf2
        · exact Or.inr ⟨b, x, by simp, by simp [hmem], hcan, hhull⟩
        · exact Or.inl (by simp [hsub f hf2])
    | none =>
      rw [hfc] at hp
      cases hrec : coalescePass bs with
      | some bs2 =>
        rw [hrec] at hp
        injection hp with hl2
        subst hl2
        obtain ⟨hlen, hpts, hmem⟩ := ih bs2 hrec
        refine ⟨by simp [← hlen], ?_, ?_⟩
        · rw [ptsL_cons, ptsL_cons, hpts]
        · intro f hf
          rcases List.mem_cons.mp hf with rfl | hf2
          · exact Or.inl (by simp)
          · rcases hmem f hf2 with h1 | ⟨a, c, ha, hc, hcan, hhull⟩
            · exact Or.inl (by simp [h1])
            · exact Or.inr ⟨a, c, by simp [ha], by simp [hc], hcan, hhull⟩
      | none => rw [hrec] at hp; exact Option.noConfusion hp

theorem coalesceAux_noPass : ∀ (fuel : Nat) (l : List Bounds), l.length ≤ fuel →
    coalescePass (coalesceAux fuel l) = none := by
  intro fuel
  induction fuel with
  | zero =>
    intro l hl
    have : l = [] := List.length_eq_zero.mp (Nat.le_zero.mp hl)
    subst this
    rfl
  | succ fuel ih =>
    intro l hl
    rw [coalesceAux]
    cases hp : coalescePass l with
    | some l2 =>
      have := (coalescePass_spec l l2 hp).1
      exact ih l2 (by omega)
    | none => exact hp

theorem coalesceAux_inv : ∀ (fuel : Nat) (l : List Bounds),
    (∀ f ∈ l, nonemptyB f = true) →
    ptsL (coalesceAux fuel l) = ptsL l ∧
      (∀ f ∈ coalesceAux fuel l, nonemptyB f = true) := by
  intro fuel
  induction fuel with
  | zero => intro l hl; exact ⟨rfl, hl⟩
  | succ fuel ih =>
    intro l hl
    rw [coalesceAux]
    cases hp : coalescePass l with
    | some l2 =>
      obtain ⟨_, hpts, hmem⟩ := coalescePass_spec l l2 hp
      have hl2 : ∀ f ∈ l2, nonemptyB f = true := by
        intro f hf
        rcases hmem f hf with h1 | ⟨a, b, ha, hb, hcan, hhull⟩
        · exact hl f h1
        · rw [hhull]
          exact nonemptyB_hullB a b (canCoalesce_len a b hcan) (hl a ha) (hl b hb)
      have := ih l2 hl2
      exact ⟨this.1.trans hpts, this.2⟩
    | none => exact ⟨rfl, hl⟩

theorem coalesceAux_of_noPass (fuel : Nat) (l : List Bounds)
    (h : coalescePass l = none) : coalesceAux fuel l = l := by
  cases fuel with
  | zero => rfl
  | succ fuel => rw [coalesceAux, h]

theorem ptsL_filter_nonempty (l : List Bounds) :
    ptsL (l.filter (fun b => nonemptyB b)) = ptsL l := by
  induction l with
  | nil => rfl
  | cons b bs ih =>
    rw [List.filter_cons]
    by_cases hb : nonemptyB b = true
    · rw [if_pos (by rw [hb])]
      rw [ptsL_cons, ptsL_cons, ih]
    · have hbf : nonemptyB b = false := by
        cases h : nonemptyB b
        · rfl
        · exact absurd h hb
      rw [if_neg (by rw [hbf]; exact Bool.noConfusion)]
      have hempty : pts b = ∅ := by
        rw [← Finset.not_nonempty_iff_eq_empty, ← nonemptyB_iff_pts_nonempty]
        intro hc
        exact hb hc
      rw [ih, ptsL_cons, hempty, Finset.empty_union]

theorem coalesceB_nonempty (l : List Bounds) :
    ∀ f ∈ coalesceB l, nonemptyB f = true := by
  have hfil : ∀ f ∈ l.filter (fun b => nonemptyB b), nonemptyB f = true := by
    intro f hf
    exact (List.mem_filter.mp hf).2
  exact (coalesceAux_inv _ _ hfil).2

theorem ptsL_coalesceB (l : List Bounds) : ptsL (coalesceB l) = ptsL l := by
  have hfil : ∀ f ∈ l.filter (fun b => nonemptyB b), nonemptyB f = true := by
    intro f hf
    exact (List.mem_filter.mp hf).2
  exact ((coalesceAux_inv _ _ hfil).1).trans (ptsL_filter_nonempty l)

theorem coalesceB_idem (l : List Bounds) : coalesceB (coalesceB l) = coalesceB l := by
  have hne := coalesceB_nonempty l
  have hfil : (coalesceB l).filter (fun b => nonemptyB b) = coalesceB l :=
    List.filter_eq_self.mpr (fun b hb => by rw [hne b hb])
  have hnp : coalescePass (coalesceB l) = none :=
    coalesceAux_noPass _ _ (le_refl _)
  rw [show coalesceB (coalesceB l) = coalesceAux
    ((coalesceB l).filter (fun b => nonemptyB b)).length
    ((coalesceB l).filter (fun b => nonemptyB b)) from rfl, hfil]
  exact coalesceAux_of_noPass _ _ hnp

/-- C6: coalesce() merges a pair of members only when their union is exactly
representable as one box (the merged hull covers precisely the union of the two),
repeats until no further merge is possible — so a second application returns the
same container — removes all empty members, and covers exactly the same index set;
because it processes members in container order, its output depends on member
order: two permutations of the same members coalesce to different results. -/
theorem C6_coalesce_contract (l : List Bounds) :
    coalesceB (coalesceB l) = coalesceB l ∧
      (∀ f ∈ coalesceB l, nonemptyB f = true) ∧
      ptsL (coalesceB l) = ptsL l ∧
      (∀ a b : Bounds, canCoalesce a b = true →
        pts (hullB a b) = pts a ∪ pts b) ∧
      (∃ l1 l2 : List Bounds, l1.Perm l2 ∧ coalesceB l1 ≠ coalesceB l2) := by
  refine ⟨coalesceB_idem l, coalesceB_nonempty l, ptsL_coalesceB l, ?_, ?_⟩
  · intro a b hcan
    exact (canCoalesce_iff a b (canCoalesce_len a b hcan)).mp hcan
  · refine ⟨[[((0 : Int), (0 : Int)), ((0 : Int), (0 : Int))],
      [((1 : Int), (1 : Int)), ((0 : Int), (0 : Int))],
      [((0 : Int), (0 : Int)), ((1 : Int), (1 : Int))]],
      [[((0 : Int), (0 : Int)), ((0 : Int), (0 : Int))],
      [((0 : Int), (0 : Int)), ((1 : Int), (1 : Int))],
      [((1 : Int), (1 : Int)), ((0 : Int), (0 : Int))]], ?_, ?_⟩
    · exact List.Perm.cons _ (List.Perm.swap _ _ [])
    · decide

/-- C6 witness: two flush one-cell boxes coalesce into their hull, which covers
exactly their union. -/
theorem C6_coalesce_contract_witness :
    canCoalesce [((0 : Int), (0 : Int))] [((1 : Int), (1 : Int))] = true ∧
      pts (hullB [((0 : Int), (0 : Int))] [((1 : Int), (1 : Int))]) =
        pts [((0 : Int), (0 : Int))] ∪ pts [((1 : Int), (1 : Int))] :=
  ⟨by decide, (C6_coalesce_contract []).2.2.2.1 [((0 : Int), (0 : Int))]
    [((1 : Int), (1 : Int))] (by decide)⟩

theorem ltPt_irrefl : ∀ p : List Int, ltPt p p = false := by
  intro p
  induction p with
  | nil => rfl
  | cons x xs ih => simp [ltPt, ih]

theorem ltPt_asymm : ∀ p q : List Int, ltPt p q = true → ltPt q p = false := by
  intro p
  induction p with
  | nil =>
    intro q h
    cases q with
    | nil => simp [ltPt] at h
    | cons y ys => rfl
  | cons x xs ih =>
    intro q h
    cases q with
    | nil => simp [ltPt] at h
    | cons y ys =>
      simp only [ltPt, Bool.or_eq_true, Bool.and_eq_true, decide_eq_true_eq] at h
      simp only [ltPt, Bool.or_eq_false_iff, Bool.and_eq_false_iff,
        decide_eq_false_iff_not]
      rcases h with h1 | ⟨h1, h2⟩
      · exact ⟨by omega, Or.inl (by omega)⟩
      · exact ⟨by omega, Or.inr (ih ys h2)⟩

theorem ltPt_trans : ∀ p q r : List Int, ltPt p q = true → ltPt q r = true →
    ltPt p r = true := by
  intro p
  induction p with
  | nil =>
    intro q r h1 h2
    cases q with
    | nil => exact h2
    | cons y ys =>
      cases r with
      | nil => simp [ltPt] at h2
      | cons z zs => rfl
  | cons x xs ih =>
    intro q r h1 h2
    cases q with
    | nil => simp [ltPt] at h1
    | cons y ys =>
      cases r with
      | nil => simp [ltPt] at h2
      | cons z zs =>
        simp only [ltPt, Bool.or_eq_true, Bool.and_eq_true, decide_eq_true_eq]
          at h1 h2 ⊢
        rcases h1 with h1 | ⟨he1, hr1⟩ <;> rcases h2 with h2 | ⟨he2, hr2⟩
        · exact Or.inl (by omega)
        · exact Or.inl (by omega)
        · exact Or.inl (by omega)
        · exact Or.inr ⟨by omega, ih ys zs hr1 hr2⟩

theorem ltPt_total : ∀ p q : List Int, ltPt p q = true ∨ p = q ∨ ltPt q p = true := by
  intro p
  induction p with
  | nil =>
    intro q
    cases q with
    | nil => exact Or.inr (Or.inl rfl)
    | cons y ys => exact Or.inl rfl
  | cons x xs ih =>
    intro q
    cases q with
    | nil => exact Or.inr (Or.inr rfl)
    | cons y ys =>
      rcases lt_trichotomy x y with h | h | h
      · exact Or.inl (by simp [ltPt, h])
      · subst h
        rcases ih ys with h2 | h2 | h2
        · exact Or.inl (by simp [ltPt, h2])
        · exact Or.inr (Or.inl (by rw [h2]))
        · exact Or.inr (Or.inr (by simp [ltPt, h2]))
      · exact Or.inr (Or.inr (by simp [ltPt, h]))

theorem mem_insertPt : ∀ (l : List (List Int)) (p q : List Int),
    q ∈ insertPt p l ↔ q = p ∨ q ∈ l := by
  intro l
  induction l with
  | nil => intro p q; simp [insertPt]
  | cons a rest ih =>
    intro p q
    rw [insertPt]
    by_cases h1 : ltPt p a = true
    · rw [if_pos h1]
      simp only [List.mem_cons]
    · rw [if_neg h1]
      by_cases h2 : (p == a) = true
      · rw [if_pos h2]
        have hpa : p = a := beq_iff_eq.mp h2
        subst hpa
        simp only [List.mem_cons]
        tauto
      · rw [if_neg h2]
        simp only [List.mem_cons, ih]
        tauto

theorem chainLt_cons (p : List Int) (l : List (List Int))
    (h : chainLt (p :: l) = true) : chainLt l = true := by
  cases l with
  | nil => rfl
  | cons q rest =>
    have h2 : (ltPt p q && chainLt (q :: rest)) = true := h
    simp only [Bool.and_eq_true] at h2
    exact h2.2

theorem chainLt_rel : ∀ (l : List (List Int)) (p : List Int),
    chainLt (p :: l) = true → ∀ q ∈ l, ltPt p q = true := by
  intro l
  induction l with
  | nil =>
    intro p _ q hq
    simp at hq
  | cons a rest ih =>
    intro p h q hq
    have h2 : (ltPt p a && chainLt (a :: rest)) = true := h
    simp only [Bool.and_eq_true] at h2
    rcases List.mem_cons.mp hq with rfl | hq2
    · exact h2.1
    · exact ltPt_trans p a q h2.1 (ih a h2.2 q hq2)

theorem insertPt_chain : ∀ (l : List (List Int)) (p : List Int), chainLt l = true →
    chainLt (insertPt p l) = true := by
  intro l
  induction l with
  | nil => intro p _; rfl
  | cons a rest ih =>
    intro p h
    rw [insertPt]
    by_cases h1 : ltPt p a = true
    · rw [if_pos h1]
      show (ltPt p a && chainLt (a :: rest)) = true
      rw [h1, h]
      rfl
    · rw [if_neg h1]
      by_cases h2 : (p == a) = true
      · rw [if_pos h2]
        exact h
      · rw [if_neg h2]
        have hap : ltPt a p = true := by
          rcases ltPt_total p a with h3 | h3 | h3
          · exact absurd h3 h1
          · exact absurd (beq_iff_eq.mpr h3) h2
          · exact h3
        have hrest : chainLt rest = true := chainLt_cons a rest h
        cases rest with
        | nil =>
          show (ltPt a p && chainLt [p]) = true
          rw [hap]
          rfl
        | cons b rest2 =>
          rw [insertPt]
          by_cases h3 : ltPt p b = true
          · rw [if_pos h3]
            show (ltPt a p && chainLt (p :: b :: rest2)) = true
            have hc : chainLt (p :: b :: rest2) = true := by
              show (ltPt p b && chainLt (b :: rest2)) = true
              rw [h3, hrest]
              rfl
            rw [hap, hc]
            rfl
          · rw [if_neg h3]
            by_cases h4 : (p == b) = true
            · rw [if_pos h4]
              exact h
            · rw [if_neg h4]
              have hins2 : chainLt (b :: insertPt p rest2) = true := by
                have hh := ih p hrest
                rw [insertPt, if_neg h3, if_neg h4] at hh
                exact hh
              have hab : ltPt a b = true := by
                have hx : (ltPt a b && chainLt (b :: rest2)) = true := h
                simp only [Bool.and_eq_true] at hx
                exact hx.1
              show (ltPt a b && chainLt (b :: insertPt p rest2)) = true
              rw [hab, hins2]
              rfl

theorem sortPts_chain : ∀ ps : List (List Int), chainLt (sortPts ps) = true := by
  intro ps
  induction ps with
  | nil => rfl
  | cons p ps ih => exact insertPt_chain _ p ih

theorem mem_sortPts : ∀ (ps : List (List Int)) (q : List Int),
    q ∈ sortPts ps ↔ q ∈ ps := by
  intro ps
  induction ps with
  | nil => intro q; simp [sortPts]
  | cons p ps ih =>
    intro q
    show q ∈ insertPt p (sortPts ps) ↔ _
    rw [mem_insertPt, ih q]
    simp only [List.mem_cons]

theorem chain_canonical : ∀ l1 l2 : List (List Int), chainLt l1 = true →
    chainLt l2 = true → (∀ q, q ∈ l1 ↔ q ∈ l2) → l1 = l2 := by
  intro l1
  induction l1 with
  | nil =>
    intro l2 _ _ hmem
    cases l2 with
    | nil => rfl
    | cons q l2t => exact absurd ((hmem q).mpr (by simp)) (by simp)
  | cons p l1t ih =>
    intro l2 h1 h2 hmem
    cases l2 with
    | nil => exact absurd ((hmem p).mp (by simp)) (by simp)
    | cons q l2t =>
      have hpq : p = q := by
        rcases List.mem_cons.mp ((hmem p).mp (by simp)) with h | h
        · exact h
        · have hqp := chainLt_rel l2t q h2 p h
          rcases List.mem_cons.mp ((hmem q).mpr (by simp)) with h3 | h3
          · exact h3.symm
          · have hpq2 := chainLt_rel l1t p h1 q h3
            rw [ltPt_asymm q p hqp] at hpq2
            exact Bool.noConfusion hpq2
      subst hpq
      have htails : ∀ r, r ∈ l1t ↔ r ∈ l2t := by
        intro r
        constructor
        · intro hr
          have hlt := chainLt_rel l1t p h1 r hr
          rcases List.mem_cons.mp ((hmem r).mp (by simp [hr])) with h3 | h3
          · subst h3
            rw [ltPt_irrefl] at hlt
            exact absurd hlt Bool.noConfusion
          · exact h3
        · intro hr
          have hlt := chainLt_rel l2t p h2 r hr
          rcases List.mem_cons.mp ((hmem r).mpr (by simp [hr])) with h3 | h3
          · subst h3
            rw [ltPt_irrefl] at hlt
            exact absurd hlt Bool.noConfusion
          · exact h3
      rw [ih l2t (chainLt_cons p l1t h1) (chainLt_cons p l2t h2) htails]

theorem chainLt_pairwise : ∀ l : List (List Int), chainLt l = true →
    l.Pairwise (fun p q => ltPt p q = true) := by
  intro l
  induction l with
  | nil => intro _; exact List.Pairwise.nil
  | cons p l ih =>
    intro h
    exact List.pairwise_cons.mpr ⟨chainLt_rel l p h, ih (chainLt_cons p l h)⟩

theorem sortPts_nodup (ps : List (List Int)) : (sortPts ps).Nodup := by
  refine (chainLt_pairwise _ (sortPts_chain ps)).imp ?_
  intro a b h he
  subst he
  rw [ltPt_irrefl] at h
  exact Bool.noConfusion h

theorem mem_intRange (l h x : Int) : x ∈ intRange l h ↔ l ≤ x ∧ x ≤ h := by
  simp only [intRange, List.mem_map, List.mem_range]
  constructor
  · rintro ⟨i, hi, rfl⟩
    omega
  · rintro ⟨h1, h2⟩
    exact ⟨(x - l).toNat, by omega, by omega⟩

theorem mem_ptList : ∀ (b : Bounds) (q : List Int), q ∈ ptList b ↔ memB q b = true := by
  intro b
  induction b with
  | nil =>
    intro q
    cases q <;> simp [ptList, memB]
  | cons d bs ih =>
    intro q
    rw [ptList, List.mem_flatMap]
    cases q with
    | nil =>
      constructor
      · rintro ⟨x, _, hq⟩
        obtain ⟨p, _, hp⟩ := List.mem_map.mp hq
        exact absurd hp (by simp)
      · intro h
        simp [memB] at h
    | cons y qs =>
      constructor
      · rintro ⟨x, hx, hq⟩
        obtain ⟨p, hp, heq⟩ := List.mem_map.mp hq
        injection heq with he1 he2
        rw [he1] at hx
        rw [he2] at hp
        have hrange := (mem_intRange d.1 d.2 y).mp hx
        simp only [memB, Bool.and_eq_true, decide_eq_true_eq]
        exact ⟨⟨hrange.1, hrange.2⟩, (ih qs).mp hp⟩
      · intro h
        simp only [memB, Bool.and_eq_true, decide_eq_true_eq] at h
        exact ⟨y, (mem_intRange d.1 d.2 y).mpr ⟨h.1.1, h.1.2⟩,
          List.mem_map.mpr ⟨qs, (ih qs).mpr h.2, rfl⟩⟩

theorem memB_unitBox : ∀ p q : List Int, memB q (unitBox p) = true ↔ q = p := by
  intro p
  induction p with
  | nil =>
    intro q
    cases q <;> simp [unitBox, memB]
  | cons x xs ih =>
    intro q
    cases q with
    | nil => simp [unitBox, memB]
    | cons y qs =>
      simp only [unitBox, List.map_cons, memB, Bool.and_eq_true, decide_eq_true_eq,
        List.cons.injEq]
      constructor
      · rintro ⟨⟨h1, h2⟩, h3⟩
        exact ⟨by omega, (ih qs).mp h3⟩
      · rintro ⟨rfl, rfl⟩
        exact ⟨⟨le_refl _, le_refl _⟩, (ih qs).mpr rfl⟩

theorem nonemptyB_unitBox (p : List Int) : nonemptyB (unitBox p) = true := by
  rw [nonemptyB, unitBox, List.all_eq_true]
  intro d hd
  obtain ⟨x, _, rfl⟩ := List.mem_map.mp hd
  simp

theorem extendsRun_props : ∀ (p : List Int) (b : Bounds), extendsRun p b = true →
    nonemptyB b = true →
    (∀ q, memB q (extendRun p b) = true ↔ (q = p ∨ memB q b = true)) ∧
      nonemptyB (extendRun p b) = true := by
  intro p
  induction p with
  | nil =>
    intro b hext _
    simp [extendsRun] at hext
  | cons x xs ih =>
    intro b hext hne
    cases b with
    | nil => simp [extendsRun] at hext
    | cons d bs =>
      cases xs with
      | nil =>
        cases bs with
        | nil =>
          have hd : d.1 = x + 1 := by
            have : decide (d.1 = x + 1) = true := hext
            exact decide_eq_true_eq.mp this
          have hdne : d.1 ≤ d.2 := by
            simp only [nonemptyB, List.all_cons, List.all_nil, Bool.and_eq_true,
              decide_eq_true_eq] at hne
            exact hne.1
          constructor
          · intro q
            show memB q [(x, d.2)] = true ↔ _
            cases q with
            | nil => simp [memB]
            | cons y qs =>
              cases qs with
              | nil =>
                simp only [memB, Bool.and_true, Bool.and_eq_true,
                  decide_eq_true_eq, List.cons.injEq, and_true]
                omega
              | cons z zs =>
                simp [memB]
          · show nonemptyB [(x, d.2)] = true
            simp only [nonemptyB, List.all_cons, List.all_nil, Bool.and_true,
              decide_eq_true_eq]
            omega
        | cons e bs2 =>
          have : extendsRun ([] : List Int) (e :: bs2) = true := by
            have h2 : (decide (d.1 = x) && decide (d.2 = x) &&
              extendsRun ([] : List Int) (e :: bs2)) = true := hext
            simp only [Bool.and_eq_true] at h2
            exact h2.2
          simp [extendsRun] at this
      | cons x2 xs2 =>
        cases bs with
        | nil =>
          have h2 : (decide (d.1 = x) && decide (d.2 = x) &&
              extendsRun (x2 :: xs2) ([] : Bounds)) = true := hext
          simp only [Bool.and_eq_true] at h2
          simp [extendsRun] at h2
        | cons e bs2 =>
          have h2 : (decide (d.1 = x) && decide (d.2 = x) &&
              extendsRun (x2 :: xs2) (e :: bs2)) = true := hext
          simp only [Bool.and_eq_true, decide_eq_true_eq] at h2
          obtain ⟨⟨hd1, hd2⟩, hrec⟩ := h2
          have hnbs : nonemptyB (e :: bs2) = true := by
            simp only [nonemptyB, List.all_cons, Bool.and_eq_true] at hne ⊢
            exact hne.2
          have hdok : d.1 ≤ d.2 := by omega
          obtain ⟨ihcov, ihne⟩ := ih (e :: bs2) hrec hnbs
          constructor
          · intro q
            show memB q (d :: extendRun (x2 :: xs2) (e :: bs2)) = true ↔ _
            cases q with
            | nil => simp [memB]
            | cons y qs =>
              simp only [memB, Bool.and_eq_true, decide_eq_true_eq, List.cons.injEq]
              rw [show (memB qs (extendRun (x2 :: xs2) (e :: bs2)) = true) ↔ _ from
                ihcov qs]
              constructor
              · rintro ⟨⟨h1, h2⟩, rfl | h3⟩
                · exact Or.inl ⟨by omega, rfl⟩
                · exact Or.inr ⟨⟨h1, h2⟩, h3⟩
              · rintro (⟨rfl, rfl⟩ | ⟨⟨h1, h2⟩, h3⟩)
                · exact ⟨⟨by omega, by omega⟩, Or.inl rfl⟩
                · exact ⟨⟨h1, h2⟩, Or.inr h3⟩
          · show nonemptyB (d :: extendRun (x2 :: xs2) (e :: bs2)) = true
            simp only [nonemptyB, List.all_cons, Bool.and_eq_true, decide_eq_true_eq]
            refine ⟨hdok, ?_⟩
            simpa [nonemptyB] using ihne

theorem mergeRuns_props : ∀ P : List (List Int),
    (∀ b ∈ mergeRuns P, nonemptyB b = true) ∧
      (∀ q, (∃ b ∈ mergeRuns P, memB q b = true) ↔ q ∈ P) := by
  intro P
  induction P with
  | nil =>
    refine ⟨by simp [mergeRuns], by simp [mergeRuns]⟩
  | cons p ps ih =>
    obtain ⟨ihne, ihcov⟩ := ih
    cases hm : mergeRuns ps with
    | nil =>
      have hstep : mergeRuns (p :: ps) = [unitBox p] := by rw [mergeRuns, hm]
      rw [hm] at ihcov
      rw [hstep]
      constructor
      · intro b hb
        simp only [List.mem_singleton] at hb
        subst hb
        exact nonemptyB_unitBox p
      · intro q
        constructor
        · rintro ⟨b, hb, hmem⟩
          simp only [List.mem_singleton] at hb
          subst hb
          exact List.mem_cons.mpr (Or.inl ((memB_unitBox p q).mp hmem))
        · intro hq
          rcases List.mem_cons.mp hq with rfl | hq2
          · exact ⟨unitBox q, by simp, (memB_unitBox q q).mpr rfl⟩
          · exfalso
            have := (ihcov q).mpr hq2
            simp at this
    | cons b bs =>
      rw [hm] at ihne ihcov
      have hbne : nonemptyB b = true := ihne b (by simp)
      have hstep : mergeRuns (p :: ps) =
          (if extendsRun p b then extendRun p b :: bs
            else unitBox p :: b :: bs) := by
        rw [mergeRuns, hm]
      by_cases hext : extendsRun p b = true
      · rw [hstep, if_pos hext]
        obtain ⟨hcov2, hne2⟩ := extendsRun_props p b hext hbne
        constructor
        · intro f hf
          rcases List.mem_cons.mp hf with rfl | hf2
          · exact hne2
          · exact ihne f (by simp [hf2])
        · intro q
          constructor
          · rintro ⟨f, hf, hmem⟩
            rcases List.mem_cons.mp hf with rfl | hf2
            · rcases (hcov2 q).mp hmem with rfl | h2
              · exact List.mem_cons.mpr (Or.inl rfl)
              · exact List.mem_cons.mpr (Or.inr ((ihcov q).mp ⟨b, by simp, h2⟩))
            · exact List.mem_cons.mpr
                (Or.inr ((ihcov q).mp ⟨f, by simp [hf2], hmem⟩))
          · intro hq
            rcases List.mem_cons.mp hq with rfl | hq2
            · exact ⟨extendRun q b, by simp, (hcov2 q).mpr (Or.inl rfl)⟩
            · obtain ⟨f, hf, hmem⟩ := (ihcov q).mpr hq2
              rcases List.mem_cons.mp hf with rfl | hf2
              · exact ⟨extendRun p f, by simp, (hcov2 q).mpr (Or.inr hmem)⟩
              · exact ⟨f, by simp [hf2], hmem⟩
      · rw [hstep, if_neg hext]
        constructor
        · intro f hf
          rcases List.mem_cons.mp hf with rfl | hf2
          · exact nonemptyB_unitBox p
          · exact ihne f hf2
        · intro q
          constructor
          · rintro ⟨f, hf, hmem⟩
            rcases List.mem_cons.mp hf with rfl | hf2
            · exact List.mem_cons.mpr (Or.inl ((memB_unitBox p q).mp hmem))
            · exact List.mem_cons.mpr (Or.inr ((ihcov q).mp ⟨f, hf2, hmem⟩))
          · intro hq
            rcases List.mem_cons.mp hq with rfl | hq2
            · exact ⟨unitBox q, by simp, (memB_unitBox q q).mpr rfl⟩
            · obtain ⟨f, hf, hmem⟩ := (ihcov q).mpr hq2
              exact ⟨f, by simp [hf], hmem⟩

theorem mergeRuns_pairwise : ∀ P : List (List Int), P.Nodup →
    (mergeRuns P).Pairwise ptsDisj := by
  intro P
  induction P with
  | nil => intro _; simp [mergeRuns]
  | cons p ps ih =>
    intro hnd
    have hnotin : p ∉ ps := (List.nodup_cons.mp hnd).1
    have hpair := ih (List.nodup_cons.mp hnd).2
    obtain ⟨hne, hcov⟩ := mergeRuns_props ps
    cases hm : mergeRuns ps with
    | nil =>
      have hstep : mergeRuns (p :: ps) = [unitBox p] := by rw [mergeRuns, hm]
      rw [hstep]
      simp
    | cons b bs =>
      rw [hm] at hpair hne hcov
      have hbne := hne b (by simp)
      have hpcons := List.pairwise_cons.mp hpair
      have hstep : mergeRuns (p :: ps) =
          (if extendsRun p b then extendRun p b :: bs
            else unitBox p :: b :: bs) := by
        rw [mergeRuns, hm]
      by_cases hext : extendsRun p b = true
      · rw [hstep, if_pos hext]
        obtain ⟨hcov2, _⟩ := extendsRun_props p b hext hbne
        refine List.pairwise_cons.mpr ⟨?_, hpcons.2⟩
        intro g hg
        rw [ptsDisj_iff]
        rintro q ⟨h1, h2⟩
        rcases (hcov2 q).mp h1 with rfl | h3
        · exact hnotin ((hcov q).mp ⟨g, by simp [hg], h2⟩)
        · exact (ptsDisj_iff b g).mp (hpcons.1 g hg) q ⟨h3, h2⟩
      · rw [hstep, if_neg hext]
        refine List.pairwise_cons.mpr ⟨?_, hpair⟩
        intro g hg
        rw [ptsDisj_iff]
        rintro q ⟨h1, h2⟩
        have hqp := (memB_unitBox p q).mp h1
        subst hqp
        exact hnotin ((hcov q).mp ⟨g, hg, h2⟩)

theorem mem_flatMap_ptList (l : List Bounds) (q : List Int) :
    q ∈ l.flatMap ptList ↔ ∃ b ∈ l, memB q b = true := by
  rw [List.mem_flatMap]
  constructor
  · rintro ⟨b, hb, hq⟩
    exact ⟨b, hb, (mem_ptList b q).mp hq⟩
  · rintro ⟨b, hb, hq⟩
    exact ⟨b, hb, (mem_ptList b q).mpr hq⟩

theorem existsMem_iff_mem_ptsL (L : List Bounds) (q : List Int) :
    (∃ b ∈ L, memB q b = true) ↔ q ∈ ptsL L := by
  rw [mem_ptsL]
  constructor
  · rintro ⟨b, hb, hq⟩
    exact ⟨b, hb, (mem_pts b q).mpr hq⟩
  · rintro ⟨b, hb, hq⟩
    exact ⟨b, hb, (mem_pts b q).mp hq⟩

theorem ptsDisj_head_ptsL (b : Bounds) (bs : List Bounds)
    (h : ∀ g ∈ bs, ptsDisj b g) : pts b ∩ ptsL bs = ∅ := by
  ext p
  simp only [Finset.mem_inter, Finset.not_mem_empty, iff_false, not_and]
  intro hpb hpl
  obtain ⟨g, hg, hpg⟩ := (mem_ptsL bs p).mp hpl
  have hd := h g hg
  rw [ptsDisj] at hd
  have hmem : p ∈ pts b ∩ pts g := Finset.mem_inter.mpr ⟨hpb, hpg⟩
  rw [hd] at hmem
  exact Finset.not_mem_empty p hmem

theorem canMergeDir_canCoalesce (k : Nat) (a b : Bounds)
    (h : canMergeDir k a b = true) : canCoalesce a b = true := by
  rw [canMergeDir, Bool.and_eq_true] at h
  exact h.2

theorem findDir_full : ∀ (xs : List Bounds) (k : Nat) (b h : Bounds) (ys : List Bounds),
    findDir k b xs = some (h, ys) → xs.Pairwise ptsDisj →
    ∃ x, canCoalesce b x = true ∧ h = hullB b x ∧ x ∈ xs ∧ (∀ f ∈ ys, f ∈ xs) ∧
      ptsL xs = pts x ∪ ptsL ys ∧ ys.Pairwise ptsDisj ∧
      (∀ g ∈ ys, pts x ∩ pts g = ∅) := by
  intro xs
  induction xs with
  | nil =>
    intro k b h ys hf _
    simp [findDir] at hf
  | cons x0 xs ih =>
    intro k b h ys hf hp
    have hp2 := List.pairwise_cons.mp hp
    rw [findDir] at hf
    by_cases hc : canMergeDir k b x0 = true
    · rw [if_pos hc] at hf
      injection hf with hf2
      injection hf2 with hh hys
      subst hh
      subst hys
      refine ⟨x0, canMergeDir_canCoalesce k b x0 hc, rfl, by simp,
        fun f hf => by simp [hf], ptsL_cons x0 xs, hp2.2, ?_⟩
      intro g hg
      have hd := hp2.1 g hg
      rw [ptsDisj] at hd
      exact hd
    · rw [if_neg hc] at hf
      cases hrec : findDir k b xs with
      | none =>
        rw [hrec] at hf
        exact Option.noConfusion hf
      | some pr =>
        obtain ⟨h0, ys0⟩ := pr
        rw [hrec] at hf
        injection hf with hf2
        injection hf2 with hh hys
        subst hh
        subst hys
        obtain ⟨x, hcan, hhull, hxmem, hmem, hpts, hpw, hxdis⟩ :=
          ih k b h0 ys0 hrec hp2.2
        refine ⟨x, hcan, hhull, List.mem_cons.mpr (Or.inr hxmem), ?_, ?_, ?_, ?_⟩
        · intro f hf2
          rcases List.mem_cons.mp hf2 with rfl | hf3
          · simp
          · simp [hmem f hf3]
        · rw [ptsL_cons, hpts, ptsL_cons]
          ext p
          simp only [Finset.mem_union]
          tauto
        · refine List.pairwise_cons.mpr ⟨?_, hpw⟩
          intro g hg
          exact hp2.1 g (hmem g hg)
        · intro g hg
          rcases List.mem_cons.mp hg with rfl | hg2
          · have hd := hp2.1 x hxmem
            rw [ptsDisj] at hd
            rw [Finset.inter_comm]
            exact hd
          · exact hxdis g hg2

theorem dirPass_full : ∀ (l : List Bounds) (k : Nat) (l2 : List Bounds),
    dirPass k l = some l2 → l.Pairwise ptsDisj →
    ptsL l2 = ptsL l ∧ l2.Pairwise ptsDisj := by
  intro l
  induction l with
  | nil =>
    intro k l2 hp _
    simp [dirPass] at hp
  | cons b bs ih =>
    intro k l2 hp hpw
    have hpw2 := List.pairwise_cons.mp hpw
    rw [dirPass] at hp
    cases hfd : findDir k b bs with
    | some pr =>
      obtain ⟨h, rest⟩ := pr
      rw [hfd] at hp
      injection hp with hl2
      subst hl2
      obtain ⟨x, hcan, hhull, hxmem, hmem, hpts, hrpw, hxdis⟩ :=
        findDir_full bs k b h rest hfd hpw2.2
      have hhpts : pts h = pts b ∪ pts x := by
        rw [hhull]
        exact (canCoalesce_iff b x (canCoalesce_len b x hcan)).mp hcan
      constructor
      · rw [ptsL_cons, ptsL_cons, hpts, hhpts]
        ext p
        simp only [Finset.mem_union]
        tauto
      · refine List.pairwise_cons.mpr ⟨?_, hrpw⟩
        intro g hg
        rw [ptsDisj, hhpts]
        have hbg : pts b ∩ pts g = ∅ := by
          have hd := hpw2.1 g (hmem g hg)
          rw [ptsDisj] at hd
          exact hd
        have hxg := hxdis g hg
        ext p
        simp only [Finset.mem_inter, Finset.mem_union, Finset.not_mem_empty,
          iff_false, not_and]
        rintro (hpb | hpx) hpg
        · have hin : p ∈ pts b ∩ pts g := Finset.mem_inter.mpr ⟨hpb, hpg⟩
          rw [hbg] at hin
          exact Finset.not_mem_empty p hin
        · have hin : p ∈ pts x ∩ pts g := Finset.mem_inter.mpr ⟨hpx, hpg⟩
          rw [hxg] at hin
          exact Finset.not_mem_empty p hin
    | none =>
      rw [hfd] at hp
      cases hrec : dirPass k bs with
      | some bs2 =>
        rw [hrec] at hp
        injection hp with hl2
        subst hl2
        obtain ⟨hpts, hbpw⟩ := ih k bs2 hrec hpw2.2
        constructor
        · rw [ptsL_cons, ptsL_cons, hpts]
        · refine List.pairwise_cons.mpr ⟨?_, hbpw⟩
          intro g hg
          rw [ptsDisj]
          have hsub : pts g ⊆ ptsL bs := by
            rw [← hpts]
            exact pts_subset_ptsL bs2 g hg
          have hbl := ptsDisj_head_ptsL b bs hpw2.1
          have hsub2 : pts b ∩ pts g ⊆ pts b ∩ ptsL bs :=
            Finset.inter_subset_inter (Finset.Subset.refl _) hsub
          rw [hbl] at hsub2
          exact Finset.subset_empty.mp hsub2
      | none =>
        rw [hrec] at hp
        exact Option.noConfusion hp

theorem dirFix_inv : ∀ (fuel k : Nat) (l : List Bounds), l.Pairwise ptsDisj →
    ptsL (dirFix k fuel l) = ptsL l ∧ (dirFix k fuel l).Pairwise ptsDisj := by
  intro fuel
  induction fuel with
  | zero =>
    intro k l hpw
    exact ⟨rfl, hpw⟩
  | succ fuel ih =>
    intro k l hpw
    rw [dirFix]
    cases hp : dirPass k l with
    | some l2 =>
      obtain ⟨hpts, hpw2⟩ := dirPass_full l k l2 hp hpw
      obtain ⟨hpts2, hpw3⟩ := ih k l2 hpw2
      exact ⟨hpts2.trans hpts, hpw3⟩
    | none => exact ⟨rfl, hpw⟩

theorem coalesceDirsDown_inv : ∀ (n : Nat) (l : List Bounds), l.Pairwise ptsDisj →
    ptsL (coalesceDirsDown n l) = ptsL l ∧
      (coalesceDirsDown n l).Pairwise ptsDisj := by
  intro n
  induction n with
  | zero =>
    intro l hpw
    exact ⟨rfl, hpw⟩
  | succ n ih =>
    intro l hpw
    have h1 := dirFix_inv l.length n l hpw
    have h2 := ih (coalesceDir n l) h1.2
    exact ⟨h2.1.trans h1.1, h2.2⟩

theorem ptsL_simplifyB (l : List Bounds) : ptsL (simplifyB l) = ptsL l := by
  have hmr := mergeRuns_props (sortPts (l.flatMap ptList))
  have hpw := mergeRuns_pairwise _ (sortPts_nodup (l.flatMap ptList))
  have hdown := coalesceDirsDown_inv (ptDim (sortPts (l.flatMap ptList)))
    (mergeRuns (sortPts (l.flatMap ptList))) hpw
  rw [show simplifyB l = coalesceDirsDown (ptDim (sortPts (l.flatMap ptList)))
    (mergeRuns (sortPts (l.flatMap ptList))) from rfl, hdown.1]
  ext q
  rw [← existsMem_iff_mem_ptsL, ← existsMem_iff_mem_ptsL, hmr.2 q, mem_sortPts,
    mem_flatMap_ptList]

theorem simplifyB_cover (l : List Bounds) (q : List Int) :
    (∃ b ∈ simplifyB l, memB q b = true) ↔ ∃ b ∈ l, memB q b = true := by
  rw [existsMem_iff_mem_ptsL, existsMem_iff_mem_ptsL, ptsL_simplifyB]

theorem simplifyB_pairwise (l : List Bounds) : (simplifyB l).Pairwise ptsDisj :=
  (coalesceDirsDown_inv _ _ (mergeRuns_pairwise _ (sortPts_nodup _))).2

theorem simplifyB_perm (l1 l2 : List Bounds) (hp : l1.Perm l2) :
    simplifyB l1 = simplifyB l2 := by
  have hS : sortPts (l1.flatMap ptList) = sortPts (l2.flatMap ptList) := by
    refine chain_canonical _ _ (sortPts_chain _) (sortPts_chain _) ?_
    intro q
    rw [mem_sortPts, mem_sortPts, mem_flatMap_ptList, mem_flatMap_ptList]
    constructor
    · rintro ⟨b, hb, hq⟩
      exact ⟨b, hp.mem_iff.mp hb, hq⟩
    · rintro ⟨b, hb, hq⟩
      exact ⟨b, hp.mem_iff.mpr hb, hq⟩
  rw [simplifyB, simplifyB, hS]

theorem simplifyB_idem (l : List Bounds) : simplifyB (simplifyB l) = simplifyB l := by
  have hS : sortPts ((simplifyB l).flatMap ptList) = sortPts (l.flatMap ptList) := by
    refine chain_canonical _ _ (sortPts_chain _) (sortPts_chain _) ?_
    intro q
    rw [mem_sortPts, mem_sortPts, mem_flatMap_ptList, mem_flatMap_ptList]
    exact simplifyB_cover l q
  rw [show simplifyB (simplifyB l) =
    coalesceDirsDown (ptDim (sortPts ((simplifyB l).flatMap ptList)))
      (mergeRuns (sortPts ((simplifyB l).flatMap ptList))) from rfl, hS, simplifyB]

/-- C5: simplify() is idempotent, its output is independent of the order of the
input members (canonical), its output covers exactly the same index set with no
pairwise overlap, and the other calculus operations do not invoke it implicitly:
coalesce and removeIntersections have concrete outputs whose box decompositions
are not canonical — simplify() rewrites them into different box sets — so neither
operation ends by canonicalizing its result. -/
theorem C5_simplify_contract :
    (∀ l : List Bounds, simplifyB (simplifyB l) = simplifyB l) ∧
      (∀ l1 l2 : List Bounds, l1.Perm l2 → simplifyB l1 = simplifyB l2) ∧
      (∀ l : List Bounds, ptsL (simplifyB l) = ptsL l) ∧
      (∀ l : List Bounds, (simplifyB l).Pairwise ptsDisj) ∧
      (simplifyB (coalesceB
          [[((0 : Int), (0 : Int)), ((0 : Int), (0 : Int))],
            [((1 : Int), (1 : Int)), ((0 : Int), (0 : Int))],
            [((0 : Int), (0 : Int)), ((1 : Int), (1 : Int))]]) ≠
        coalesceB
          [[((0 : Int), (0 : Int)), ((0 : Int), (0 : Int))],
            [((1 : Int), (1 : Int)), ((0 : Int), (0 : Int))],
            [((0 : Int), (0 : Int)), ((1 : Int), (1 : Int))]]) ∧
      (simplifyB (removeIntersectionsB
          [[((0 : Int), (0 : Int)), ((0 : Int), (1 : Int))],
            [((1 : Int), (1 : Int)), ((0 : Int), (1 : Int))]]
          [((0 : Int), (1 : Int)), ((0 : Int), (0 : Int))]) ≠
        removeIntersectionsB
          [[((0 : Int), (0 : Int)), ((0 : Int), (1 : Int))],
            [((1 : Int), (1 : Int)), ((0 : Int), (1 : Int))]]
          [((0 : Int), (1 : Int)), ((0 : Int), (0 : Int))]) := by
  refine ⟨simplifyB_idem, simplifyB_perm, ptsL_simplifyB, simplifyB_pairwise, ?_, ?_⟩
  · decide
  · decide

/-- C5 witness: the canonical output is order-independent for two concrete
permutations of the same two boxes. -/
theorem C5_simplify_contract_witness :
    ([[((0 : Int), (0 : Int))], [((2 : Int), (3 : Int))]] : List Bounds).Perm
        [[((2 : Int), (3 : Int))], [((0 : Int), (0 : Int))]] ∧
      simplifyB [[((0 : Int), (0 : Int))], [((2 : Int), (3 : Int))]] =
        simplifyB [[((2 : Int), (3 : Int))], [((0 : Int), (0 : Int))]] :=
  ⟨List.Perm.swap _ _ [], C5_simplify_contract.2.1
    [[((0 : Int), (0 : Int))], [((2 : Int), (3 : Int))]]
    [[((2 : Int), (3 : Int))], [((0 : Int), (0 : Int))]] (List.Perm.swap _ _ [])⟩

end SAMRAI
